import Mathlib

/-!
A shallow embedding of the `madang-parser` CommonMark block parser
(`src/parser/mod.rs` and its submodules) in Lean 4, together with proofs
about the embedded definitions.

Strings are modelled as `List Char`; Rust's byte-indexed slicing in the
parser only ever slices after an ASCII prefix (spaces, marker characters,
digits, fence characters), where byte indices and character indices agree,
so the character-list model is extensionally faithful.

Recursive re-parsing of container-block inner text (Rust's direct
recursion in `parse_item_lines` and `parse_block_simple`) is embedded with
an explicit fuel parameter; `parse` instantiates the fuel at
`input.length + 1`, and a stability theorem shows any fuel above the
input length computes the same tree, so the fuel is invisible at and
above the canonical bound.
-/

namespace Madang

/-! ## String primitives (Rust `str` operations on `List Char`) -/

/-- Rust `char::is_whitespace`: the Unicode `White_Space` property. -/
def isWS (c : Char) : Bool :=
  c.toNat = 0x20 ∨ (0x9 ≤ c.toNat ∧ c.toNat ≤ 0xd) ∨
  c.toNat = 0x85 ∨ c.toNat = 0xa0 ∨ c.toNat = 0x1680 ∨
  (0x2000 ≤ c.toNat ∧ c.toNat ≤ 0x200a) ∨
  c.toNat = 0x2028 ∨ c.toNat = 0x2029 ∨ c.toNat = 0x202f ∨
  c.toNat = 0x205f ∨ c.toNat = 0x3000

/-- `count_leading_char` from `helpers.rs`. -/
def countLeadingChar (s : List Char) (c : Char) : Nat :=
  (s.takeWhile (fun ch => ch = c)).length

/-- `calculate_indent` from `helpers.rs`: spaces count 1 column, tabs 4. -/
def calculateIndent (s : List Char) : Nat :=
  ((s.takeWhile (fun c => c = ' ' ∨ c = '\t')).map
    (fun c => if c = '\t' then 4 else 1)).sum

/-- Rust `str::trim_start` (by Unicode whitespace). -/
def trimStart (s : List Char) : List Char := s.dropWhile (fun c => isWS c)

/-- Rust `str::trim_end` (by Unicode whitespace). -/
def trimEnd (s : List Char) : List Char := (trimStart s.reverse).reverse

/-- Rust `str::trim`. -/
def trimR (s : List Char) : List Char := trimEnd (trimStart s)

/-- `line.trim().is_empty()`: the line is blank. -/
def isBlank (s : List Char) : Bool := trimR s = []

/-- `remove_indent` from `helpers.rs`: strip at most `n` leading spaces. -/
def removeIndent (s : List Char) (n : Nat) : List Char :=
  s.drop (min (countLeadingChar s ' ') n)

/-- Join strings with a single `'\n'` (Rust `Vec::join("\n")`). -/
def joinNL : List (List Char) → List Char
  | [] => []
  | [l] => l
  | l :: ls => l ++ '\n' :: joinNL ls

/-- Strip one trailing `'\r'` (used by `str::lines` after stripping `'\n'`). -/
def stripCR (l : List Char) : List Char :=
  if l.getLast? = some '\r' then l.dropLast else l

/-- Worker for `linesOf`: `cur` is the reversed current line. -/
def linesGo (cur : List Char) : List Char → List (List Char)
  | [] => if cur = [] then [] else [cur.reverse]
  | c :: rest =>
    if c = '\n' then stripCR cur.reverse :: linesGo [] rest
    else linesGo (c :: cur) rest

/-- Rust `str::lines`: split at `'\n'`, strip a `'\r'` before each split
point, and drop a final empty segment. On `[]` it yields no lines, and a
lone final line keeps a trailing `'\r'`. -/
def linesOf (s : List Char) : List (List Char) := linesGo [] s

/-- Worker for `splitNLNL` (Rust `str::split("\n\n")`). -/
def splitNLNLGo (cur : List Char) : List Char → List (List Char)
  | '\n' :: '\n' :: rest => cur.reverse :: splitNLNLGo [] rest
  | c :: rest => splitNLNLGo (c :: cur) rest
  | [] => [cur.reverse]

/-- Rust `str::split("\n\n")`: leftmost non-overlapping splitting. -/
def splitNLNL (s : List Char) : List (List Char) := splitNLNLGo [] s

/-- `trim_blank_lines` from `helpers.rs`: drop leading and trailing blank
lines, then join with `'\n'`. -/
def trimBlankLines (lines : List (List Char)) : List Char :=
  joinNL (((lines.dropWhile (fun s => isBlank s)).reverse.dropWhile
    (fun s => isBlank s)).reverse)

/-- Numeric value of a list of ASCII digits (Rust `str::parse::<usize>`,
which cannot overflow here because at most 9 digits are accepted). -/
def digitsToNat (ds : List Char) : Nat :=
  ds.foldl (fun acc c => acc * 10 + (c.toNat - '0'.toNat)) 0

end Madang

namespace Madang

/-! ## The document model (`node.rs`) -/

/-- `ListType` from `node.rs`. -/
inductive ListType where
  | bullet : ListType
  | ordered (delimiter : Char) : ListType
  deriving DecidableEq, Repr

/-- `Node` from `node.rs` (the `Text` payload is a character list). -/
inductive Node where
  | document (children : List Node)
  | heading (level : Nat) (children : List Node)
  | paragraph (children : List Node)
  | blockquote (children : List Node)
  | codeBlock (info : Option (List Char)) (content : List Char)
  | thematicBreak
  | list (listType : ListType) (start : Nat) (tight : Bool)
      (children : List Node)
  | listItem (children : List Node)
  | text (s : List Char)
  deriving Repr

/-- `ListMarker` from `list_item.rs`. -/
inductive ListMarker where
  | bullet (c : Char)
  | ordered (start : Nat) (delimiter : Char)
  deriving DecidableEq, Repr

/-- `ListMarker::to_list_type`. -/
def ListMarker.toListType : ListMarker → ListType × Nat
  | .bullet _ => (ListType.bullet, 1)
  | .ordered start delimiter => (ListType.ordered delimiter, start)

/-- `ListMarker::is_same_type`: same variant and same marker character
(bullet) or same delimiter (ordered); the start number is irrelevant. -/
def ListMarker.isSameType : ListMarker → ListMarker → Bool
  | .bullet c1, .bullet c2 => c1 = c2
  | .ordered _ d1, .ordered _ d2 => d1 = d2
  | _, _ => false

/-- `ListItemStart` from `list_item.rs`. -/
structure ListItemStart where
  marker : ListMarker
  indent : Nat
  contentIndent : Nat
  content : List Char
  deriving DecidableEq, Repr

/-- `ListItemStart::with_content_from`: extract the first-line content
after the content indent. -/
def ListItemStart.withContentFrom (s : ListItemStart) (line : List Char) :
    ListItemStart :=
  { s with content :=
      if s.contentIndent ≥ line.length then [] else line.drop s.contentIndent }

/-- `ItemLine` from `list_item.rs`: a buffered list-item content line,
with the `text_only` re-parse suppression flag. -/
structure ItemLine where
  content : List Char
  textOnly : Bool
  deriving DecidableEq, Repr

def ItemLine.lineText (content : List Char) : ItemLine := ⟨content, false⟩

def ItemLine.lineTextOnly (content : List Char) : ItemLine := ⟨content, true⟩

def ItemLine.lineBlank : ItemLine := ⟨[], false⟩

/-- `CodeBlockFencedStart` from `context.rs`. -/
structure CodeBlockFencedStart where
  fenceChar : Char
  fenceLen : Nat
  info : Option (List Char)
  indent : Nat
  deriving DecidableEq, Repr

/-- `ParsingContext` from `context.rs` (the state of the line machine). -/
inductive ParsingContext where
  | idle
  | codeBlockFenced (fstart : CodeBlockFencedStart)
      (content : List (List Char))
  | paragraph (lines : List (List Char))
  | blockquote (lines : List (List Char))
  | list (firstItemStart : ListItemStart) (items : List (List ItemLine))
      (currentItemLines : List ItemLine) (currentContentIndent : Nat)
      (tight : Bool) (pendingBlankCount : Nat)
  | codeBlockIndented (lines : List (List Char)) (pendingBlankCount : Nat)
  deriving DecidableEq, Repr

end Madang

namespace Madang

/-! ## Leaf and marker classifiers -/

/-- `thematic_break::parse` as called from `mod.rs` with the pre-trimmed
line and its pre-computed indentation: indentation at most 3, non-empty,
first character in `{*,-,_}`, every character either that character or
whitespace, and at least 3 marker characters. -/
def thematicBreakParse (trimmed : List Char) (indent : Nat) : Option Node :=
  if indent > 3 then none
  else
    match trimmed with
    | [] => none
    | first :: _ =>
      if first ≠ '*' ∧ first ≠ '-' ∧ first ≠ '_' then none
      else if trimmed.all (fun c => c = first ∨ c = ' ' ∨ c = '\t') then
        if 3 ≤ (trimmed.filter (fun c => c = first)).length then
          some Node.thematicBreak
        else none
      else none

/-- `strip_closing_hashes` from `heading.rs`: a trailing run of `#` is
stripped when the whole string is hashes or the run is preceded by a
space or tab (which is then trimmed away too). -/
def stripClosingHashes (s : List Char) : List Char :=
  let withoutHashes := (s.reverse.dropWhile (fun c => c = '#')).reverse
  if withoutHashes.length = s.length then s
  else if withoutHashes = [] then []
  else if withoutHashes.getLast? = some ' ' ∨ withoutHashes.getLast? = some '\t'
    then trimEnd withoutHashes
  else s

/-- `heading::parse` (ATX headings) as called from `mod.rs` with the
pre-trimmed line and pre-computed indentation. -/
def headingParse (trimmed : List Char) (indent : Nat) : Option Node :=
  if indent > 3 then none
  else if ¬ trimmed.headI = '#' ∨ trimmed = [] then none
  else
    let level := countLeadingChar trimmed '#'
    if level > 6 then none
    else
      let rest := trimmed.drop level
      if rest = [] ∨ rest.headI = ' ' ∨ rest.headI = '\t' then
        some (Node.heading level
          [Node.text (stripClosingHashes (trimR rest))])
      else none

/-- `SetextLevel` from `heading_setext.rs`. -/
inductive SetextLevel where
  | level1
  | level2
  deriving DecidableEq, Repr

/-- `SetextLevel::to_level`. -/
def SetextLevel.toLevel : SetextLevel → Nat
  | .level1 => 1
  | .level2 => 2

/-- `heading_setext::try_start`: the line (already trimmed by the caller;
the function also strips trailing whitespace itself) must be non-empty
and consist of one repeated character from `{=, -}`, with indentation at
most 3. -/
def headingSetextTryStart (line : List Char) (indent : Nat) :
    Option SetextLevel :=
  if indent > 3 then none
  else
    let trimmed := trimEnd line
    match trimmed with
    | [] => none
    | first :: _ =>
      let level : Option SetextLevel :=
        if first = '=' then some .level1
        else if first = '-' then some .level2
        else none
      match level with
      | none => none
      | some lv => if trimmed.all (fun c => c = first) then some lv else none

/-- `fenced_code_block::try_start`: at most 3 leading spaces, then at
least three identical backticks or tildes; the trimmed remainder is the
info string (empty ↦ `none`). -/
def fencedTryStart (line : List Char) : Option CodeBlockFencedStart :=
  let indent := countLeadingChar line ' '
  if indent > 3 then none
  else
    let afterIndent := line.drop indent
    let fence : Option (Char × Nat) :=
      if afterIndent.take 3 = ['`', '`', '`'] then
        some ('`', countLeadingChar afterIndent '`')
      else if afterIndent.take 3 = ['~', '~', '~'] then
        some ('~', countLeadingChar afterIndent '~')
      else none
    match fence with
    | none => none
    | some (fenceChar, fenceLen) =>
      let infoStr := trimR (afterIndent.drop fenceLen)
      some { fenceChar := fenceChar, fenceLen := fenceLen,
             info := if infoStr = [] then none else some infoStr,
             indent := indent }

/-- `fenced_code_block::try_end`: `true` iff the line closes a fence
opened with `fenceChar` and run length `minFenceLen` — indentation at
most 3, a leading run of the same fence character at least as long as
the opening run, and nothing but whitespace after it. -/
def fencedTryEnd (line : List Char) (fenceChar : Char)
    (minFenceLen : Nat) : Bool :=
  let indent := countLeadingChar line ' '
  if indent > 3 then false
  else
    let afterIndent := line.drop indent
    let closingLen := countLeadingChar afterIndent fenceChar
    if closingLen = 0 then false
    else if closingLen < minFenceLen then false
    else if ¬ trimR (afterIndent.drop closingLen) = [] then false
    else true

/-- Result of `code_block_indented::try_start`. -/
inductive CBIndentedStart where
  | started (content : List Char)
  | empty
  | insufficientIndent
  deriving DecidableEq, Repr

/-- `code_block_indented::try_start`: at least 4 leading spaces starts a
code line (stripping exactly 4 columns); otherwise a blank line or an
insufficiently indented line. -/
def cbIndentedTryStart (line : List Char) : CBIndentedStart :=
  let indent := countLeadingChar line ' '
  if indent ≥ 4 then .started (line.drop 4)
  else if isBlank line then .empty
  else .insufficientIndent

/-- `try_bullet_marker` from `list_item.rs`. -/
def tryBulletMarker (s : List Char) (indent : Nat) : Option ListItemStart :=
  match s with
  | [] => none
  | firstChar :: rest =>
    if firstChar ≠ '-' ∧ firstChar ≠ '+' ∧ firstChar ≠ '*' then none
    else if rest = [] then
      some { marker := .bullet firstChar, indent := indent,
             contentIndent := indent + 1, content := [] }
    else
      match rest with
      | [] => none
      | afterMarker :: _ =>
        if afterMarker ≠ ' ' ∧ afterMarker ≠ '\t' then none
        else
          let spacesAfterMarker := countLeadingChar rest ' '
          some { marker := .bullet firstChar, indent := indent,
                 contentIndent := indent + 1 + min spacesAfterMarker 4,
                 content := [] }

/-- `try_ordered_marker` from `list_item.rs`: 1–9 ASCII digits, then
`'.'` or `')'`, then required whitespace (or end of line for an empty
item). -/
def tryOrderedMarker (s : List Char) (indent : Nat) : Option ListItemStart :=
  let numStr := s.takeWhile (fun c => c.isDigit)
  if numStr = [] ∨ numStr.length > 9 then none
  else
    let startNum := digitsToNat numStr
    let rest := s.drop numStr.length
    match rest with
    | [] => none
    | delimiter :: afterDelimiter =>
      if delimiter ≠ '.' ∧ delimiter ≠ ')' then none
      else if afterDelimiter = [] then
        some { marker := .ordered startNum delimiter, indent := indent,
               contentIndent := indent + (numStr.length + 1), content := [] }
      else
        match afterDelimiter with
        | [] => none
        | afterChar :: _ =>
          if afterChar ≠ ' ' ∧ afterChar ≠ '\t' then none
          else
            let spacesAfterDelimiter := countLeadingChar afterDelimiter ' '
            some { marker := .ordered startNum delimiter, indent := indent,
                   contentIndent :=
                     indent + (numStr.length + 1) + min spacesAfterDelimiter 4,
                   content := [] }

/-- Result of `list_item::try_start`. -/
inductive ListItemTryStart where
  | started (s : ListItemStart)
  | codeBlockIndented
  | notListMarker
  deriving DecidableEq, Repr

/-- `list_item::try_start`: leading spaces at most 3, then a bullet or
ordered marker; the first-line content is extracted from the line at the
content indent. -/
def listItemTryStart (line : List Char) : ListItemTryStart :=
  let indent := countLeadingChar line ' '
  if indent > 3 then .codeBlockIndented
  else
    let afterIndent := line.drop indent
    match tryBulletMarker afterIndent indent with
    | some s => .started (s.withContentFrom line)
    | none =>
      match tryOrderedMarker afterIndent indent with
      | some s => .started (s.withContentFrom line)
      | none => .notListMarker

/-- Result of `list_item::try_end`. -/
inductive ListTryEnd where
  | reprocess
  | blank
  | newItem (s : ListItemStart)
  | continuation (l : ItemLine)
  deriving DecidableEq, Repr

/-- `list_item::try_end`: decide whether a line ends the list, starts a
new item, continues the current item, or is a pending blank. -/
def listTryEnd (line : List Char) (marker : ListMarker)
    (firstContentIndent currentContentIndent : Nat) : ListTryEnd :=
  if isBlank line then .blank
  else
    let indent := countLeadingChar line ' '
    let fallThrough : ListTryEnd :=
      if indent ≥ firstContentIndent then
        .continuation (ItemLine.lineText
          (line.drop (min indent currentContentIndent)))
      else .reprocess
    if indent < currentContentIndent then
      match listItemTryStart line with
      | .started newStart =>
        if marker.isSameType newStart.marker then .newItem newStart
        else .reprocess
      | .codeBlockIndented =>
        if indent ≥ firstContentIndent then
          .continuation (ItemLine.lineTextOnly
            (line.drop (min indent currentContentIndent)))
        else fallThrough
      | .notListMarker => fallThrough
    else fallThrough

/-- Per-line `blockquote::parse` from `blockquote.rs`: strip a leading
`>` (after trimming; plus one following space or tab) and return the
content, or `none` when the line is too indented or has no marker. -/
def bqLineParse (line : List Char) : Option (List Char) :=
  let indent := calculateIndent line
  let trimmed := trimR line
  if indent > 3 then none
  else
    match trimmed with
    | '>' :: rest =>
      match rest with
      | ' ' :: rest2 => some rest2
      | '\t' :: rest2 => some rest2
      | _ => some rest
    | _ => none

end Madang

namespace Madang

/-! ## Block-level parsers used inside blockquotes -/

/-- `paragraph::parse`: wrap trimmed text in a paragraph with a single
plain-text inline. -/
def paragraphParse (trimmed : List Char) : Node :=
  Node.paragraph [Node.text trimmed]

/-- `fenced_code_block::parse` (whole-text form, used from
`parse_block_simple`): the first line must open a fence; the last line
closes it when it matches; the interior (indent-stripped) is the
content. -/
def fencedParseText (text : List Char) : Option Node :=
  let lines := linesOf text
  match lines with
  | [] => none
  | firstLine :: restLines =>
    match fencedTryStart firstLine with
    | none => none
    | some fstart =>
      let hasClosingFence :=
        if lines.length ≥ 2 then
          fencedTryEnd ((lines.getLast?).getD []) fstart.fenceChar
            fstart.fenceLen
        else false
      let contentLines :=
        if hasClosingFence then restLines.dropLast else restLines
      let content :=
        joinNL (contentLines.map (fun l => removeIndent l fstart.indent))
      some (Node.codeBlock fstart.info content)

/-- The tail of `blockquote::parse_text`'s line loop: once the
blockquote has started, a line failing the marker parse is kept
trimmed as a lazy continuation. -/
def bqCollectRest (lines : List (List Char)) : List (List Char) :=
  lines.map (fun l => match bqLineParse l with
    | some c => c
    | none => trimR l)

/-- The line loop of `blockquote::parse_text`: the first line must carry
a blockquote marker, otherwise the whole parse yields `none`. -/
def bqCollect (lines : List (List Char)) : Option (List (List Char)) :=
  match lines with
  | [] => none
  | l :: ls =>
    match bqLineParse l with
    | some c => some (c :: bqCollectRest ls)
    | none => none

/-- `blockquote::parse_text` parameterized by the block parser used on
each `"\n\n"`-separated chunk of the collected inner text. -/
def bqParseTextP (parseBlock : List Char → Node) (text : List Char) :
    Option Node :=
  match bqCollect (linesOf text) with
  | none => none
  | some contents =>
    let joined := joinNL contents
    let chunks := (splitNLNL joined).filter (fun s => s ≠ [])
    some (Node.blockquote (chunks.map parseBlock))

/-- `parse_block_simple` from `mod.rs`, with fuel standing for Rust's
direct recursion through `blockquote::parse_text`; the canonical fuel
`block.length + 1` never runs out because each nested chunk is strictly
shorter than the enclosing blockquote text. -/
def parseBlockSimpleF : Nat → List Char → Node
  | 0, _ => Node.paragraph []
  | n + 1, block =>
    let indent := calculateIndent block
    let trimmed := trimR block
    match fencedParseText block with
    | some node => node
    | none =>
      match bqParseTextP (parseBlockSimpleF n) trimmed with
      | some node => node
      | none =>
        match thematicBreakParse trimmed indent with
        | some node => node
        | none =>
          match headingParse trimmed indent with
          | some node => node
          | none => paragraphParse trimmed

/-- `parse_block_simple` at its canonical fuel. -/
def parseBlockSimple (block : List Char) : Node :=
  parseBlockSimpleF (block.length + 1) block

/-- `blockquote::parse` as called from the line machine
(`blockquote::parse(&text, 0, parse_block_simple)`). -/
def bqParseText (text : List Char) : Option Node :=
  bqParseTextP (parseBlockSimpleF (text.length + 1)) text

end Madang

namespace Madang

/-! ## The parsing-state machine (`mod.rs`) -/

/-- One step of the chunking loop of `parse_item_lines_with_text_only`:
split buffered item lines at blank non-`text_only` lines, tracking for
each chunk whether it contains a `text_only` line. -/
def chunkItemLinesGo (cur : List ItemLine) (flag : Bool) :
    List ItemLine → List (List ItemLine × Bool)
  | [] => if cur = [] then [] else [(cur.reverse, flag)]
  | l :: ls =>
    if isBlank l.content ∧ ¬ l.textOnly then
      if cur = [] then chunkItemLinesGo [] false ls
      else (cur.reverse, flag) :: chunkItemLinesGo [] false ls
    else chunkItemLinesGo (l :: cur) (flag ∨ l.textOnly) ls

/-- The chunking pass of `parse_item_lines_with_text_only`. -/
def chunkItemLines (lines : List ItemLine) : List (List ItemLine × Bool) :=
  chunkItemLinesGo [] false lines

/-- `parse_item_lines_with_text_only`, parameterized by the recursive
document parser `p`: chunks with a `text_only` line become verbatim
paragraphs; other chunks are re-parsed. -/
def parseItemLinesWithTextOnlyP (p : List Char → Node)
    (lines : List ItemLine) : List Node :=
  (chunkItemLines lines).flatMap (fun chunk =>
    let content := joinNL (chunk.1.map (fun l => l.content))
    if chunk.2 then [Node.paragraph [Node.text content]]
    else
      match p content with
      | Node.document children => children
      | other => [other])

/-- `parse_item_lines`, parameterized by the recursive document parser:
without any `text_only` line the whole buffered item is re-parsed at
once. -/
def parseItemLinesP (p : List Char → Node) (lines : List ItemLine) :
    List Node :=
  if lines.any (fun l => l.textOnly) then parseItemLinesWithTextOnlyP p lines
  else
    match p (joinNL (lines.map (fun l => l.content))) with
    | Node.document children => children
    | other => [other]

/-- `finalize_list`: parse every buffered item into a `ListItem` and
append the finished `List` node. -/
def finalizeListP (p : List Char → Node) (firstItemStart : ListItemStart)
    (items : List (List ItemLine)) (currentItemLines : List ItemLine)
    (tight : Bool) (children : List Node) : List Node :=
  let ts := firstItemStart.marker.toListType
  let allItems := items ++ [currentItemLines]
  let listChildren := allItems.map (fun itemLines =>
    Node.listItem (parseItemLinesP p itemLines))
  children ++ [Node.list ts.1 ts.2 tight listChildren]

/-- `process_line_in_none`: detect the start of a new block. -/
def processLineInNone (line : List Char) (children : List Node) :
    List Node × ParsingContext :=
  if isBlank line then (children, .idle)
  else
    match fencedTryStart line with
    | some fstart => (children, .codeBlockFenced fstart [])
    | none =>
      let indent := calculateIndent line
      let trimmed := trimR line
      match thematicBreakParse trimmed indent with
      | some node => (children ++ [node], .idle)
      | none =>
        match headingParse trimmed indent with
        | some node => (children ++ [node], .idle)
        | none =>
          if trimmed.headI = '>' ∧ trimmed ≠ [] ∧ indent ≤ 3 then
            (children, .blockquote [trimmed])
          else
            match listItemTryStart line with
            | .started s =>
              (children,
               .list s [] [ItemLine.lineText s.content] s.contentIndent
                 true 0)
            | _ =>
              match cbIndentedTryStart line with
              | .started content => (children, .codeBlockIndented [content] 0)
              | _ => (children, .paragraph [trimR line])

/-- `process_line_in_code_block` (fenced): a closing fence finishes the
block, anything else is content with the opening indentation stripped. -/
def processLineInCodeBlock (line : List Char)
    (fstart : CodeBlockFencedStart) (content : List (List Char))
    (children : List Node) : List Node × ParsingContext :=
  if fencedTryEnd line fstart.fenceChar fstart.fenceLen then
    (children ++ [Node.codeBlock fstart.info (joinNL content)], .idle)
  else
    (children,
     .codeBlockFenced fstart (content ++ [removeIndent line fstart.indent]))

/-- `process_line_in_paragraph`: the paragraph ends on a blank line, a
fenced-code start, a setext underline, a thematic break, an ATX heading,
a blockquote marker, or a non-empty list-item start; anything else is a
trimmed continuation line. -/
def processLineInParagraph (line : List Char) (lines : List (List Char))
    (children : List Node) : List Node × ParsingContext :=
  if isBlank line then
    (children ++ [paragraphParse (joinNL lines)], .idle)
  else
    match fencedTryStart line with
    | some fstart =>
      (children ++ [paragraphParse (joinNL lines)],
       .codeBlockFenced fstart [])
    | none =>
      let trimmed := trimR line
      let indent := calculateIndent line
      match headingSetextTryStart trimmed indent with
      | some lv =>
        (children ++
          [Node.heading lv.toLevel [Node.text (joinNL lines)]], .idle)
      | none =>
        match thematicBreakParse trimmed indent with
        | some node =>
          (children ++ [paragraphParse (joinNL lines), node], .idle)
        | none =>
          match headingParse trimmed indent with
          | some node =>
            (children ++ [paragraphParse (joinNL lines), node], .idle)
          | none =>
            if trimmed.headI = '>' ∧ trimmed ≠ [] ∧ indent ≤ 3 then
              (children ++ [paragraphParse (joinNL lines)],
               .blockquote [trimmed])
            else
              match listItemTryStart line with
              | .started s =>
                if s.content ≠ [] then
                  (children ++ [paragraphParse (joinNL lines)],
                   .list s [] [ItemLine.lineText s.content] s.contentIndent
                     true 0)
                else (children, .paragraph (lines ++ [trimR line]))
              | _ => (children, .paragraph (lines ++ [trimR line]))

/-- `process_line_in_list`: delegate the decision to
`list_item::try_end` and update the list state accordingly; on
`Reprocess` the list is finalized (re-parsing each item with `p`) and
the line is replayed against the idle state. -/
def processLineInList (p : List Char → Node) (line : List Char)
    (firstItemStart : ListItemStart) (items : List (List ItemLine))
    (currentItemLines : List ItemLine) (currentContentIndent : Nat)
    (tight : Bool) (pendingBlankCount : Nat) (children : List Node) :
    List Node × ParsingContext :=
  match listTryEnd line firstItemStart.marker firstItemStart.contentIndent
      currentContentIndent with
  | .reprocess =>
    let children := finalizeListP p firstItemStart items currentItemLines
      tight children
    processLineInNone line children
  | .blank =>
    (children,
     .list firstItemStart items currentItemLines currentContentIndent tight
       (pendingBlankCount + 1))
  | .newItem newStart =>
    (children,
     .list firstItemStart (items ++ [currentItemLines])
       [ItemLine.lineText newStart.content] newStart.contentIndent
       (tight && pendingBlankCount = 0) 0)
  | .continuation itemLine =>
    (children,
     .list firstItemStart items
       (currentItemLines ++ List.replicate pendingBlankCount
         ItemLine.lineBlank ++ [itemLine])
       currentContentIndent (tight && pendingBlankCount = 0) 0)

/-- `process_line_in_code_block_indented`. -/
def processLineInCodeBlockIndented (line : List Char)
    (lines : List (List Char)) (pendingBlankCount : Nat)
    (children : List Node) : List Node × ParsingContext :=
  match cbIndentedTryStart line with
  | .started content =>
    (children,
     .codeBlockIndented
       (lines ++ List.replicate pendingBlankCount [] ++ [content]) 0)
  | .empty =>
    (children, .codeBlockIndented lines (pendingBlankCount + 1))
  | .insufficientIndent =>
    let children := children ++ [Node.codeBlock none (trimBlankLines lines)]
    processLineInNone line children

/-- `process_line_in_blockquote`: the blockquote ends on a blank line, a
fenced-code start, a thematic break, or an ATX heading; anything else
(marker or not) is buffered trimmed. -/
def processLineInBlockquote (line : List Char) (lines : List (List Char))
    (children : List Node) : List Node × ParsingContext :=
  let trimmed := trimR line
  let indent := calculateIndent line
  if trimmed = [] then
    match bqParseText (joinNL lines) with
    | some node => (children ++ [node], .idle)
    | none => (children, .idle)
  else
    match fencedTryStart line with
    | some fstart =>
      let children :=
        match bqParseText (joinNL lines) with
        | some node => children ++ [node]
        | none => children
      (children, .codeBlockFenced fstart [])
    | none =>
      match thematicBreakParse trimmed indent with
      | some node =>
        let children :=
          match bqParseText (joinNL lines) with
          | some bqNode => children ++ [bqNode]
          | none => children
        (children ++ [node], .idle)
      | none =>
        match headingParse trimmed indent with
        | some node =>
          let children :=
            match bqParseText (joinNL lines) with
            | some bqNode => children ++ [bqNode]
            | none => children
          (children ++ [node], .idle)
        | none => (children, .blockquote (lines ++ [trimmed]))

/-- `process_line`: dispatch on the current context. -/
def processLineP (p : List Char → Node) (line : List Char)
    (ctx : ParsingContext) (children : List Node) :
    List Node × ParsingContext :=
  match ctx with
  | .idle => processLineInNone line children
  | .codeBlockFenced fstart content =>
    processLineInCodeBlock line fstart content children
  | .paragraph lines => processLineInParagraph line lines children
  | .blockquote lines => processLineInBlockquote line lines children
  | .list f items cur cci tight pending =>
    processLineInList p line f items cur cci tight pending children
  | .codeBlockIndented lines pending =>
    processLineInCodeBlockIndented line lines pending children

/-- `finalize_context`: resolve whatever state is still open at
end-of-input into trailing nodes. -/
def finalizeContextP (p : List Char → Node) (ctx : ParsingContext)
    (children : List Node) : List Node :=
  match ctx with
  | .idle => children
  | .codeBlockFenced fstart content =>
    children ++ [Node.codeBlock fstart.info (joinNL content)]
  | .paragraph lines => children ++ [paragraphParse (joinNL lines)]
  | .blockquote lines =>
    match bqParseText (joinNL lines) with
    | some node => children ++ [node]
    | none => children
  | .list f items cur _ tight _ => finalizeListP p f items cur tight children
  | .codeBlockIndented lines _ =>
    children ++ [Node.codeBlock none (trimBlankLines lines)]

/-- `parse`, with fuel standing for Rust's direct recursion through
`parse_item_lines`: fold the line machine over the input lines from the
idle state and finalize. -/
def parseF : Nat → List Char → Node
  | 0, _ => Node.document []
  | n + 1, input =>
    if input = [] then Node.document []
    else
      let st := (linesOf input).foldl
        (fun st line => processLineP (parseF n) line st.2 st.1)
        (([] : List Node), ParsingContext.idle)
      Node.document (finalizeContextP (parseF n) st.2 st.1)

/-- The top-level entry point `parse` at its canonical fuel. -/
def parse (input : List Char) : Node := parseF (input.length + 1) input

/-- `parse` on a Lean string literal. -/
def parseStr (s : String) : Node := parse s.toList

end Madang

namespace Madang

/-! ## Length accounting for the string primitives -/

theorem trimStart_length_le (s : List Char) :
    (trimStart s).length ≤ s.length :=
  (List.dropWhile_sublist _).length_le

theorem trimEnd_length_le (s : List Char) : (trimEnd s).length ≤ s.length := by
  simpa [trimEnd] using trimStart_length_le s.reverse

theorem trimR_length_le (s : List Char) : (trimR s).length ≤ s.length :=
  le_trans (trimEnd_length_le _) (trimStart_length_le s)

theorem stripCR_length_le (s : List Char) : (stripCR s).length ≤ s.length := by
  unfold stripCR
  split
  · simp [List.length_dropLast]
  · exact le_refl _

theorem countLeadingChar_le (s : List Char) (c : Char) :
    countLeadingChar s c ≤ s.length :=
  (List.takeWhile_sublist _).length_le

/-- Total budget of a list of lines: each line costs its length plus one
(for its separator / terminator). -/
def lineBudget (ls : List (List Char)) : Nat :=
  (ls.map (fun l => l.length + 1)).sum

theorem lineBudget_nil : lineBudget [] = 0 := rfl

theorem lineBudget_cons (l : List Char) (ls : List (List Char)) :
    lineBudget (l :: ls) = l.length + 1 + lineBudget ls := by
  simp [lineBudget]; try omega

theorem lineBudget_append (a b : List (List Char)) :
    lineBudget (a ++ b) = lineBudget a + lineBudget b := by
  simp [lineBudget]

/-- Joining with `'\n'` costs the total budget minus one separator. -/
theorem joinNL_length (ls : List (List Char)) (h : ls ≠ []) :
    (joinNL ls).length + 1 = lineBudget ls := by
  induction ls with
  | nil => simp at h
  | cons l ls ih =>
    cases ls with
    | nil => simp [joinNL, lineBudget]
    | cons l2 ls2 =>
      have := ih (by simp)
      rw [lineBudget_cons]
      simp only [joinNL, List.length_append, List.length_cons]
      omega

theorem joinNL_length_le (ls : List (List Char)) :
    (joinNL ls).length ≤ lineBudget ls := by
  cases ls with
  | nil => simp [joinNL, lineBudget]
  | cons l ls => have := joinNL_length (l :: ls) (by simp); omega

/-- The lines of an input cost at most `input.length + 1`. -/
theorem lineBudget_linesGo (cur s : List Char) :
    lineBudget (linesGo cur s) ≤ cur.length + s.length + 1 := by
  induction s generalizing cur with
  | nil =>
    unfold linesGo
    split
    · simp [lineBudget]
    · simp [lineBudget]
  | cons c rest ih =>
    unfold linesGo
    split
    · rename_i hc
      rw [lineBudget_cons]
      have h1 := stripCR_length_le cur.reverse
      have h2 := ih []
      simp only [List.length_reverse] at h1
      simp only [List.length_nil] at h2
      simp only [List.length_cons]
      omega
    · have := ih (c :: cur)
      simp only [List.length_cons] at *
      omega

theorem lineBudget_linesOf (s : List Char) :
    lineBudget (linesOf s) ≤ s.length + 1 := by
  simpa [linesOf] using lineBudget_linesGo [] s

end Madang

namespace Madang

/-! ## Weights of buffered list-item state -/

/-- Weight of buffered item lines: each line costs its length plus one. -/
def itemWeight (ils : List ItemLine) : Nat :=
  (ils.map (fun l => l.content.length + 1)).sum

theorem itemWeight_cons (l : ItemLine) (ils : List ItemLine) :
    itemWeight (l :: ils) = l.content.length + 1 + itemWeight ils := by
  simp [itemWeight]; try omega

theorem itemWeight_append (a b : List ItemLine) :
    itemWeight (a ++ b) = itemWeight a + itemWeight b := by
  simp [itemWeight]

theorem itemWeight_reverse (a : List ItemLine) :
    itemWeight a.reverse = itemWeight a := by
  simp [itemWeight, List.sum_reverse]

theorem itemWeight_replicate_blank (n : Nat) :
    itemWeight (List.replicate n ItemLine.lineBlank) = n := by
  induction n with
  | zero => rfl
  | succ n ih =>
    rw [List.replicate_succ, itemWeight_cons, ih]
    simp [ItemLine.lineBlank]
    omega

theorem lineBudget_map_content (ils : List ItemLine) :
    lineBudget (ils.map (fun l => l.content)) = itemWeight ils := by
  induction ils with
  | nil => rfl
  | cons l ils ih => simp [lineBudget, itemWeight] at *; omega

/-! ## Content-length bounds for the classifiers -/

theorem withContentFrom_bound (s : ListItemStart) (line : List Char)
    (hci : 1 ≤ s.contentIndent) (hl : line ≠ []) :
    (s.withContentFrom line).content.length + 1 ≤ line.length := by
  have hlen : 1 ≤ line.length := by
    cases line with
    | nil => simp at hl
    | cons a l => simp
  show (if s.contentIndent ≥ line.length then ([] : List Char)
      else line.drop s.contentIndent).length + 1 ≤ line.length
  by_cases h : s.contentIndent ≥ line.length
  · rw [if_pos h]; simpa using hlen
  · rw [if_neg h]; simp [List.length_drop]; omega
theorem tryBulletMarker_ci (s : List Char) (indent : Nat)
    (st : ListItemStart) (h : tryBulletMarker s indent = some st) :
    1 ≤ st.contentIndent := by
  simp only [tryBulletMarker] at h
  split at h
  · exact absurd h (by simp)
  · split at h
    · exact absurd h (by simp)
    · split at h
      · simp only [Option.some.injEq] at h
        subst h
        simp
      · split at h
        · exact absurd h (by simp)
        · split at h
          · exact absurd h (by simp)
          · simp only [Option.some.injEq] at h
            subst h
            simp
            omega

theorem tryOrderedMarker_ci (s : List Char) (indent : Nat)
    (st : ListItemStart) (h : tryOrderedMarker s indent = some st) :
    1 ≤ st.contentIndent := by
  simp only [tryOrderedMarker] at h
  split at h
  · exact absurd h (by simp)
  · split at h
    · exact absurd h (by simp)
    · split at h
      · exact absurd h (by simp)
      · split at h
        · simp only [Option.some.injEq] at h
          subst h
          simp
          omega
        · split at h
          · exact absurd h (by simp)
          · split at h
            · exact absurd h (by simp)
            · simp only [Option.some.injEq] at h
              subst h
              simp
              omega

theorem isBlank_nil : isBlank ([] : List Char) = true := rfl

theorem not_isBlank_ne_nil {line : List Char} (h : ¬ isBlank line = true) :
    line ≠ [] := by
  intro he; subst he; simp [isBlank_nil] at h

theorem listItemTryStart_props (line : List Char) (st : ListItemStart)
    (h : listItemTryStart line = .started st) :
    st.content.length + 1 ≤ line.length ∧ 1 ≤ st.contentIndent := by
  have hl : line ≠ [] := by
    intro he
    subst he
    simp [listItemTryStart, countLeadingChar, tryBulletMarker,
      tryOrderedMarker, digitsToNat] at h
  simp only [listItemTryStart] at h
  split at h
  · exact absurd h (by simp)
  · split at h
    · rename_i s hs
      have hci := tryBulletMarker_ci _ _ _ hs
      simp only [ListItemTryStart.started.injEq] at h
      subst h
      exact ⟨withContentFrom_bound _ _ hci hl, hci⟩
    · split at h
      · rename_i s hs
        have hci := tryOrderedMarker_ci _ _ _ hs
        simp only [ListItemTryStart.started.injEq] at h
        subst h
        exact ⟨withContentFrom_bound _ _ hci hl, hci⟩
      · exact absurd h (by simp)

theorem listTryEnd_continuation_bound (line : List Char)
    (marker : ListMarker) (fci cci : Nat) (il : ItemLine)
    (hf : 1 ≤ fci) (hc : 1 ≤ cci)
    (h : listTryEnd line marker fci cci = .continuation il) :
    il.content.length + 1 ≤ line.length := by
  simp only [listTryEnd] at h
  split at h
  · exact absurd h (by simp)
  · rename_i hb
    have hl : line ≠ [] := not_isBlank_ne_nil hb
    have hlen : 1 ≤ line.length := by
      cases line with
      | nil => simp at hl
      | cons a l => simp
    split at h
    · split at h
      · split at h
        · exact absurd h (by simp)
        · exact absurd h (by simp)
      · split at h
        · simp only [ListTryEnd.continuation.injEq] at h
          subst h
          rename_i hge
          simp only [ItemLine.lineTextOnly, List.length_drop]
          omega
        · exact absurd h (by simp)
      · split at h
        · simp only [ListTryEnd.continuation.injEq] at h
          subst h
          rename_i hge
          simp only [ItemLine.lineText, List.length_drop]
          omega
        · exact absurd h (by simp)
    · split at h
      · simp only [ListTryEnd.continuation.injEq] at h
        subst h
        rename_i hge
        simp only [ItemLine.lineText, List.length_drop]
        omega
      · exact absurd h (by simp)

theorem listTryEnd_newItem_start (line : List Char) (marker : ListMarker)
    (fci cci : Nat) (ns : ListItemStart)
    (h : listTryEnd line marker fci cci = .newItem ns) :
    listItemTryStart line = .started ns ∧
      marker.isSameType ns.marker = true := by
  simp only [listTryEnd] at h
  split at h
  · exact absurd h (by simp)
  · split at h
    · split at h
      · rename_i heq
        split at h
        · simp only [ListTryEnd.newItem.injEq] at h
          subst h
          exact ⟨heq, by assumption⟩
        · exact absurd h (by simp)
      · split at h
        · exact absurd h (by simp)
        · exact absurd h (by simp)
      · split at h
        · exact absurd h (by simp)
        · exact absurd h (by simp)
    · split at h
      · exact absurd h (by simp)
      · exact absurd h (by simp)

/-! ## Context invariants and recursion thresholds -/

/-- Structural invariant of reachable parsing contexts: a list context
has positive content indents and non-empty buffered item line lists. -/
def ctxOK : ParsingContext → Prop
  | .list f items cur cci _ _ =>
    1 ≤ f.contentIndent ∧ 1 ≤ cci ∧ cur ≠ [] ∧ ∀ i ∈ items, i ≠ []
  | _ => True

/-- Weight of the buffered list state of a context. -/
def ctxW : ParsingContext → Nat
  | .list _ items cur _ _ pending =>
    (items.map itemWeight).sum + itemWeight cur + pending
  | _ => 0

/-- Threshold below which the recursive parser is consulted while
processing the remaining lines from a given context. -/
def thr (ctx : ParsingContext) (ls : List (List Char)) : Nat :=
  match ctx with
  | .list _ items cur _ _ pending =>
    (items.map itemWeight).sum + itemWeight cur + pending + lineBudget ls
  | _ => lineBudget ls - 1

theorem itemWeight_nil : itemWeight [] = 0 := rfl

theorem chunkItemLinesGo_mem (ls : List ItemLine) :
    ∀ cur flag c f, (c, f) ∈ chunkItemLinesGo cur flag ls →
      c ≠ [] ∧ itemWeight c ≤ itemWeight cur + itemWeight ls := by
  induction ls with
  | nil =>
    intro cur flag c f h
    unfold chunkItemLinesGo at h
    split at h
    · simp at h
    · rename_i hcur
      simp only [List.mem_singleton, Prod.mk.injEq] at h
      obtain ⟨h1, _⟩ := h
      subst h1
      refine ⟨by simpa using hcur, ?_⟩
      rw [itemWeight_reverse]
      simp only [itemWeight_nil]
      omega
  | cons l ls ih =>
    intro cur flag c f h
    unfold chunkItemLinesGo at h
    split at h
    · split at h
      · rename_i hsep hcur
        have h2 := ih [] false c f h
        simp only [itemWeight_nil, itemWeight_cons] at h2 ⊢
        exact ⟨h2.1, by omega⟩
      · rename_i hsep hcur
        simp only [List.mem_cons, Prod.mk.injEq] at h
        rcases h with ⟨h1, _⟩ | h
        · subst h1
          refine ⟨by simpa using hcur, ?_⟩
          rw [itemWeight_reverse, itemWeight_cons]
          omega
        · have h2 := ih [] false c f h
          simp only [itemWeight_nil, itemWeight_cons] at h2 ⊢
          exact ⟨h2.1, by omega⟩
    · have h2 := ih (l :: cur) (flag ∨ l.textOnly) c f h
      simp only [itemWeight_cons] at h2 ⊢
      exact ⟨h2.1, by omega⟩

theorem chunkItemLines_mem (ils : List ItemLine) (c : List ItemLine)
    (f : Bool) (h : (c, f) ∈ chunkItemLines ils) :
    c ≠ [] ∧ itemWeight c ≤ itemWeight ils := by
  have h2 := chunkItemLinesGo_mem ils [] false c f h
  simpa only [itemWeight_nil, Nat.zero_add] using h2

/-! ## Congruence of the list finalizers in the recursive parser -/

theorem parseItemLinesCong (p q : List Char → Node) (ils : List ItemLine)
    (hne : ils ≠ [])
    (hagr : ∀ t : List Char, t.length + 1 ≤ itemWeight ils → p t = q t) :
    parseItemLinesP p ils = parseItemLinesP q ils := by
  unfold parseItemLinesP
  split
  · unfold parseItemLinesWithTextOnlyP
    apply List.flatMap_congr
    intro chunk hchunk
    rcases chunk with ⟨c, flag⟩
    have hc := chunkItemLines_mem ils c flag hchunk
    simp only
    by_cases hf : flag = true
    · simp [hf]
    · simp only [Bool.not_eq_true] at hf
      subst hf
      have harg : (joinNL (c.map (fun l => l.content))).length + 1 ≤
          itemWeight ils := by
        have hj := joinNL_length (c.map (fun l => l.content))
          (by simpa using hc.1)
        rw [lineBudget_map_content] at hj
        omega
      rw [hagr _ harg]
  · have harg : (joinNL (ils.map (fun l => l.content))).length + 1 ≤
        itemWeight ils := by
      have hj := joinNL_length (ils.map (fun l => l.content))
        (by simpa using hne)
      rw [lineBudget_map_content] at hj
      omega
    rw [hagr _ harg]

theorem itemWeight_le_of_mem {items : List (List ItemLine)}
    {i : List ItemLine} (h : i ∈ items) :
    itemWeight i ≤ (items.map itemWeight).sum := by
  induction items with
  | nil => simp at h
  | cons a as ih =>
    rcases List.mem_cons.mp h with h | h
    · subst h
      simp only [List.map_cons, List.sum_cons]
      omega
    · simp only [List.map_cons, List.sum_cons]
      have := ih h
      omega

theorem finalizeListCong (p q : List Char → Node) (f : ListItemStart)
    (items : List (List ItemLine)) (cur : List ItemLine) (tight : Bool)
    (children : List Node)
    (hcur : cur ≠ []) (hitems : ∀ i ∈ items, i ≠ [])
    (hagr : ∀ t : List Char,
      t.length + 1 ≤ (items.map itemWeight).sum + itemWeight cur →
      p t = q t) :
    finalizeListP p f items cur tight children =
      finalizeListP q f items cur tight children := by
  unfold finalizeListP
  have hmap : (items ++ [cur]).map
        (fun itemLines => Node.listItem (parseItemLinesP p itemLines)) =
      (items ++ [cur]).map
        (fun itemLines => Node.listItem (parseItemLinesP q itemLines)) := by
    apply List.map_congr_left
    intro i hi
    have hiw : itemWeight i ≤ (items.map itemWeight).sum + itemWeight cur := by
      rcases List.mem_append.mp hi with h | h
      · have := itemWeight_le_of_mem h
        omega
      · simp only [List.mem_singleton] at h
        subst h
        omega
    have hne : i ≠ [] := by
      rcases List.mem_append.mp hi with h | h
      · exact hitems i h
      · simp only [List.mem_singleton] at h
        subst h
        exact hcur
    rw [parseItemLinesCong p q i hne (fun t ht => hagr t (by omega))]
  simp only [hmap]

/-! ## Step lemmas: invariant preservation and threshold decrease -/

theorem noneStep_props (line : List Char) (acc : List Node)
    (ls : List (List Char)) :
    ctxOK (processLineInNone line acc).2 ∧
    thr (processLineInNone line acc).2 ls ≤ lineBudget (line :: ls) - 1 := by
  simp only [processLineInNone]
  repeat' split
  all_goals
    first
    | (refine ⟨trivial, ?_⟩; simp only [thr, lineBudget_cons]; omega)
    | (rename_i s hs
       have hp := listItemTryStart_props line s hs
       refine ⟨⟨hp.2, hp.2, by simp, by simp⟩, ?_⟩
       simp only [thr, lineBudget_cons, List.map_nil, List.sum_nil,
         itemWeight_cons, itemWeight_nil, ItemLine.lineText]
       omega)

theorem paragraphStep_props (line : List Char) (lines : List (List Char))
    (acc : List Node) (ls : List (List Char)) :
    ctxOK (processLineInParagraph line lines acc).2 ∧
    thr (processLineInParagraph line lines acc).2 ls ≤
      lineBudget (line :: ls) - 1 := by
  simp only [processLineInParagraph]
  repeat' split
  all_goals
    first
    | (refine ⟨trivial, ?_⟩; simp only [thr, lineBudget_cons]; omega)
    | (rename_i s hs _
       have hp := listItemTryStart_props line s hs
       refine ⟨⟨hp.2, hp.2, by simp, by simp⟩, ?_⟩
       simp only [thr, lineBudget_cons, List.map_nil, List.sum_nil,
         itemWeight_cons, itemWeight_nil, ItemLine.lineText]
       omega)

theorem codeBlockStep_props (line : List Char)
    (fstart : CodeBlockFencedStart) (content : List (List Char))
    (acc : List Node) (ls : List (List Char)) :
    ctxOK (processLineInCodeBlock line fstart content acc).2 ∧
    thr (processLineInCodeBlock line fstart content acc).2 ls ≤
      lineBudget (line :: ls) - 1 := by
  simp only [processLineInCodeBlock]
  repeat' split
  all_goals
    refine ⟨trivial, ?_⟩; simp only [thr, lineBudget_cons]; omega

theorem blockquoteStep_props (line : List Char) (lines : List (List Char))
    (acc : List Node) (ls : List (List Char)) :
    ctxOK (processLineInBlockquote line lines acc).2 ∧
    thr (processLineInBlockquote line lines acc).2 ls ≤
      lineBudget (line :: ls) - 1 := by
  simp only [processLineInBlockquote]
  repeat' split
  all_goals
    refine ⟨trivial, ?_⟩; simp only [thr, lineBudget_cons]; omega

theorem cbIndentedStep_props (line : List Char) (lines : List (List Char))
    (pending : Nat) (acc : List Node) (ls : List (List Char)) :
    ctxOK (processLineInCodeBlockIndented line lines pending acc).2 ∧
    thr (processLineInCodeBlockIndented line lines pending acc).2 ls ≤
      lineBudget (line :: ls) - 1 := by
  simp only [processLineInCodeBlockIndented]
  split
  · refine ⟨trivial, ?_⟩; simp only [thr, lineBudget_cons]; omega
  · refine ⟨trivial, ?_⟩; simp only [thr, lineBudget_cons]; omega
  · exact noneStep_props line _ ls

theorem listStep_props (p : List Char → Node) (line : List Char)
    (f : ListItemStart) (items : List (List ItemLine))
    (cur : List ItemLine) (cci : Nat) (tight : Bool) (pending : Nat)
    (acc : List Node) (ls : List (List Char))
    (hOK : ctxOK (.list f items cur cci tight pending)) :
    ctxOK (processLineInList p line f items cur cci tight pending acc).2 ∧
    thr (processLineInList p line f items cur cci tight pending acc).2 ls ≤
      thr (.list f items cur cci tight pending) (line :: ls) := by
  obtain ⟨hf, hc, hcur, hitems⟩ := hOK
  unfold processLineInList
  split
  · -- reprocess: the list is finalized and the line replayed from idle
    have h := noneStep_props line
      (finalizeListP p f items cur tight acc) ls
    refine ⟨h.1, le_trans h.2 ?_⟩
    simp only [thr, lineBudget_cons]
    omega
  · -- blank
    refine ⟨⟨hf, hc, hcur, hitems⟩, ?_⟩
    simp only [thr, lineBudget_cons]
    omega
  · -- new item
    rename_i ns hE
    have hst := (listTryEnd_newItem_start line f.marker f.contentIndent cci
      ns hE).1
    have hp := listItemTryStart_props line ns hst
    refine ⟨⟨hf, hp.2, by simp, ?_⟩, ?_⟩
    · intro i hi
      rcases List.mem_append.mp hi with h | h
      · exact hitems i h
      · simp only [List.mem_singleton] at h
        subst h
        exact hcur
    · simp only [thr, lineBudget_cons, List.map_append, List.sum_append,
        List.map_cons, List.sum_cons, List.map_nil, List.sum_nil,
        itemWeight_cons, itemWeight_nil, ItemLine.lineText]
      omega
  · -- continuation
    rename_i il hE
    have hb := listTryEnd_continuation_bound line f.marker f.contentIndent
      cci il hf hc hE
    refine ⟨⟨hf, hc, by simp, hitems⟩, ?_⟩
    simp only [thr, lineBudget_cons, itemWeight_append,
      itemWeight_replicate_blank, itemWeight_cons, itemWeight_nil]
    omega

theorem listStepCong (p q : List Char → Node) (line : List Char)
    (f : ListItemStart) (items : List (List ItemLine))
    (cur : List ItemLine) (cci : Nat) (tight : Bool) (pending : Nat)
    (acc : List Node)
    (hcur : cur ≠ []) (hitems : ∀ i ∈ items, i ≠ [])
    (hagr : ∀ t : List Char,
      t.length + 1 ≤ (items.map itemWeight).sum + itemWeight cur →
      p t = q t) :
    processLineInList p line f items cur cci tight pending acc =
      processLineInList q line f items cur cci tight pending acc := by
  unfold processLineInList
  split
  · rw [finalizeListCong p q f items cur tight acc hcur hitems hagr]
  · rfl
  · rfl
  · rfl

theorem processLineP_cong (p q : List Char → Node) (line : List Char)
    (ctx : ParsingContext) (acc : List Node) (ls : List (List Char))
    (hOK : ctxOK ctx)
    (hagr : ∀ t : List Char, t.length + 1 ≤ thr ctx (line :: ls) →
      p t = q t) :
    processLineP p line ctx acc = processLineP q line ctx acc := by
  cases ctx with
  | list f items cur cci tight pending =>
    obtain ⟨hf, hc, hcur, hitems⟩ := hOK
    exact listStepCong p q line f items cur cci tight pending acc hcur
      hitems (fun t ht => hagr t (by simp only [thr]; omega))
  | _ => rfl

theorem processLineP_props (p : List Char → Node) (line : List Char)
    (ctx : ParsingContext) (acc : List Node) (ls : List (List Char))
    (hOK : ctxOK ctx) :
    ctxOK (processLineP p line ctx acc).2 ∧
    thr (processLineP p line ctx acc).2 ls ≤ thr ctx (line :: ls) := by
  cases ctx with
  | idle => exact noneStep_props line acc ls
  | codeBlockFenced fstart content => exact codeBlockStep_props line fstart content acc ls
  | paragraph lines => exact paragraphStep_props line lines acc ls
  | blockquote lines => exact blockquoteStep_props line lines acc ls
  | list f items cur cci tight pending =>
    exact listStep_props p line f items cur cci tight pending acc ls hOK
  | codeBlockIndented lines pending => exact cbIndentedStep_props line lines pending acc ls

theorem finalizeCong (p q : List Char → Node) (ctx : ParsingContext)
    (acc : List Node) (hOK : ctxOK ctx)
    (hagr : ∀ t : List Char, t.length + 1 ≤ thr ctx [] → p t = q t) :
    finalizeContextP p ctx acc = finalizeContextP q ctx acc := by
  cases ctx with
  | list f items cur cci tight pending =>
    obtain ⟨hf, hc, hcur, hitems⟩ := hOK
    exact finalizeListCong p q f items cur tight acc hcur hitems
      (fun t ht => hagr t (by simp only [thr]; omega))
  | _ => rfl

/-- The line-machine fold of `parse`. -/
def runP (p : List Char → Node) (ls : List (List Char)) (acc : List Node)
    (ctx : ParsingContext) : List Node × ParsingContext :=
  ls.foldl (fun st line => processLineP p line st.2 st.1) (acc, ctx)

theorem runP_nil (p : List Char → Node) (acc : List Node)
    (ctx : ParsingContext) : runP p [] acc ctx = (acc, ctx) := rfl

theorem runP_cons (p : List Char → Node) (l : List Char)
    (ls : List (List Char)) (acc : List Node) (ctx : ParsingContext) :
    runP p (l :: ls) acc ctx =
      runP p ls (processLineP p l ctx acc).1 (processLineP p l ctx acc).2 := by
  simp [runP, List.foldl_cons]

/-- Two recursive parsers that agree below the context threshold drive
the line machine to the same final state and the same finalized nodes. -/
theorem runFinalCong (p q : List Char → Node) :
    ∀ (ls : List (List Char)) (ctx : ParsingContext) (acc : List Node),
    ctxOK ctx →
    (∀ t : List Char, t.length + 1 ≤ thr ctx ls → p t = q t) →
    runP p ls acc ctx = runP q ls acc ctx ∧
    finalizeContextP p (runP p ls acc ctx).2 (runP p ls acc ctx).1 =
      finalizeContextP q (runP q ls acc ctx).2 (runP q ls acc ctx).1 := by
  intro ls
  induction ls with
  | nil =>
    intro ctx acc hOK hagr
    exact ⟨rfl, finalizeCong p q ctx acc hOK hagr⟩
  | cons l ls ih =>
    intro ctx acc hOK hagr
    have hstep := processLineP_cong p q l ctx acc ls hOK hagr
    have hprops := processLineP_props p l ctx acc ls hOK
    have hagr2 : ∀ t : List Char,
        t.length + 1 ≤ thr (processLineP p l ctx acc).2 ls → p t = q t :=
      fun t ht => hagr t (le_trans ht hprops.2)
    have hrest := ih (processLineP p l ctx acc).2 (processLineP p l ctx acc).1
      hprops.1 hagr2
    rw [runP_cons p l ls acc ctx, runP_cons q l ls acc ctx, ← hstep]
    exact hrest

theorem parseF_succ (n : Nat) (input : List Char) :
    parseF (n + 1) input =
      if input = [] then Node.document []
      else
        Node.document (finalizeContextP (parseF n)
          (runP (parseF n) (linesOf input) [] .idle).2
          (runP (parseF n) (linesOf input) [] .idle).1) := rfl

/-- Fuel stability: any fuel above the input length computes the same
tree as the canonical fuel, so `parse` is the common value of `parseF`
for all sufficiently large fuels — the embedded recursion terminates at
fuel `input.length + 1`. -/
theorem parseF_stable : ∀ (n : Nat) (s : List Char), s.length < n →
    parseF n s = parse s := by
  intro n
  induction n using Nat.strong_induction_on with
  | _ n ih =>
    intro s hs
    match n, hs with
    | n + 1, hs =>
      by_cases he : s = []
      · subst he
        show parseF (n + 1) [] = parseF 1 []
        rw [parseF_succ, parseF_succ]
        simp
      · have hagr : ∀ t : List Char,
            t.length + 1 ≤ thr .idle (linesOf s) →
            parseF n t = parseF s.length t := by
          intro t ht
          simp only [thr] at ht
          have hbud := lineBudget_linesOf s
          have htlt : t.length < s.length := by omega
          have h1 : parseF n t = parse t := by
            by_cases hn : n = 0
            · omega
            · exact ih n (by omega) t (by omega)
          have h2 : parseF s.length t = parse t :=
            ih s.length (by omega) t htlt
          rw [h1, h2]
        have hcong := runFinalCong (parseF n) (parseF s.length)
          (linesOf s) .idle [] trivial hagr
        show parseF (n + 1) s = parseF (s.length + 1) s
        rw [parseF_succ, parseF_succ, if_neg he, if_neg he]
        rw [hcong.2]

/-! ## Tree invariants over parse results -/

/-- Sub-node list of a node (empty for leaves). -/
def childrenOf : Node → List Node
  | .document cs => cs
  | .heading _ cs => cs
  | .paragraph cs => cs
  | .blockquote cs => cs
  | .list _ _ _ cs => cs
  | .listItem cs => cs
  | .codeBlock _ _ => []
  | .thematicBreak => []
  | .text _ => []

/-- `P` holds of a node and, recursively, of every node below it. -/
inductive NodeAll (P : Node → Prop) : Node → Prop where
  | mk : ∀ n, P n → (∀ c ∈ childrenOf n, NodeAll P c) → NodeAll P n

theorem NodeAll.self {P : Node → Prop} {n : Node} (h : NodeAll P n) :
    P n := by cases h; assumption

theorem NodeAll.children {P : Node → Prop} {n : Node} (h : NodeAll P n) :
    ∀ c ∈ childrenOf n, NodeAll P c := by cases h; assumption

theorem NodeAll.imp {P Q : Node → Prop} (hPQ : ∀ n, P n → Q n) :
    ∀ {n : Node}, NodeAll P n → NodeAll Q n := by
  intro n h
  induction h with
  | mk n hp hc ih => exact ⟨n, hPQ n hp, ih⟩

/-- Every node of a parse result satisfies: heading levels lie in 1–6,
and bullet lists have start number 1. -/
def structuralOK : Node → Prop
  | .heading lv _ => 1 ≤ lv ∧ lv ≤ 6
  | .list .bullet st _ _ => st = 1
  | _ => True

theorem structuralOK_text (s : List Char) : structuralOK (.text s) := trivial

theorem nodeAll_text {P : Node → Prop} (s : List Char) (h : P (.text s)) :
    NodeAll P (.text s) :=
  ⟨_, h, by simp [childrenOf]⟩

theorem nodeAll_structuralOK_paragraphParse (s : List Char) :
    NodeAll structuralOK (paragraphParse s) := by
  refine ⟨_, trivial, ?_⟩
  intro c hc
  simp only [paragraphParse, childrenOf, List.mem_singleton] at hc
  subst hc
  exact nodeAll_text _ trivial

theorem countLeadingChar_pos {s : List Char} {c : Char}
    (hne : s ≠ []) (hh : s.headI = c) : 1 ≤ countLeadingChar s c := by
  cases s with
  | nil => simp at hne
  | cons a l =>
    simp only [List.headI] at hh
    subst hh
    simp [countLeadingChar, List.takeWhile]

theorem nodeAll_structuralOK_headingParse (trimmed : List Char)
    (indent : Nat) (node : Node) (h : headingParse trimmed indent = some node) :
    NodeAll structuralOK node := by
  simp only [headingParse] at h
  split at h
  · exact absurd h (by simp)
  · split at h
    · exact absurd h (by simp)
    · split at h
      · exact absurd h (by simp)
      · split at h
        · rename_i hnot _ _
          simp only [Option.some.injEq] at h
          subst h
          rw [not_or] at hnot
          refine ⟨_, ?_, ?_⟩
          · refine ⟨?_, by omega⟩
            apply countLeadingChar_pos
            · exact hnot.2
            · simpa using hnot.1
          · intro c hc
            simp only [childrenOf, List.mem_singleton] at hc
            subst hc
            exact nodeAll_text _ trivial
        · exact absurd h (by simp)

theorem nodeAll_structuralOK_thematicBreakParse (trimmed : List Char)
    (indent : Nat) (node : Node)
    (h : thematicBreakParse trimmed indent = some node) :
    NodeAll structuralOK node := by
  simp only [thematicBreakParse] at h
  repeat' split at h
  all_goals first
  | (simp only [Option.some.injEq] at h; subst h
     exact ⟨_, trivial, by simp [childrenOf]⟩)
  | exact absurd h (by simp)

/-- All nodes of a list satisfy the recursive invariant. -/
def allSOK (ns : List Node) : Prop := ∀ c ∈ ns, NodeAll structuralOK c

theorem allSOK_nil : allSOK [] := by intro c hc; simp at hc

theorem allSOK_append_one {ns : List Node} {n : Node} (h : allSOK ns)
    (hn : NodeAll structuralOK n) : allSOK (ns ++ [n]) := by
  intro c hc
  rcases List.mem_append.mp hc with h1 | h1
  · exact h c h1
  · simp only [List.mem_singleton] at h1
    subst h1
    exact hn

theorem nodeAll_structuralOK_codeBlock (info : Option (List Char))
    (content : List Char) : NodeAll structuralOK (.codeBlock info content) :=
  ⟨_, trivial, by simp [childrenOf]⟩

theorem nodeAll_structuralOK_setext (lv : SetextLevel) (t : List Char) :
    NodeAll structuralOK (Node.heading lv.toLevel [Node.text t]) := by
  refine ⟨_, ?_, ?_⟩
  · cases lv <;> exact ⟨by simp [SetextLevel.toLevel], by simp [SetextLevel.toLevel]⟩
  · intro c hc
    simp only [childrenOf, List.mem_singleton] at hc
    subst hc
    exact nodeAll_text _ trivial

theorem nodeAll_structuralOK_fencedParseText (text : List Char) (node : Node)
    (h : fencedParseText text = some node) : NodeAll structuralOK node := by
  simp only [fencedParseText] at h
  repeat' split at h
  all_goals first
  | (simp only [Option.some.injEq] at h; subst h
     exact nodeAll_structuralOK_codeBlock _ _)
  | exact absurd h (by simp)

theorem nodeAll_structuralOK_bqParseTextP (pb : List Char → Node)
    (text : List Char) (node : Node)
    (hpb : ∀ t, NodeAll structuralOK (pb t))
    (h : bqParseTextP pb text = some node) : NodeAll structuralOK node := by
  simp only [bqParseTextP] at h
  split at h
  · exact absurd h (by simp)
  · simp only [Option.some.injEq] at h
    subst h
    refine ⟨_, trivial, ?_⟩
    intro c hc
    simp only [childrenOf, List.mem_map] at hc
    obtain ⟨t, _, ht⟩ := hc
    subst ht
    exact hpb t

theorem nodeAll_structuralOK_pbsF (n : Nat) :
    ∀ b, NodeAll structuralOK (parseBlockSimpleF n b) := by
  induction n with
  | zero =>
    intro b
    refine ⟨_, trivial, ?_⟩
    show ∀ c ∈ childrenOf (parseBlockSimpleF 0 b), NodeAll structuralOK c
    simp [parseBlockSimpleF, childrenOf]
  | succ n ih =>
    intro b
    simp only [parseBlockSimpleF]
    split
    · rename_i node heq
      exact nodeAll_structuralOK_fencedParseText _ _ heq
    · split
      · rename_i node heq
        exact nodeAll_structuralOK_bqParseTextP _ _ _ ih heq
      · split
        · rename_i node heq
          exact nodeAll_structuralOK_thematicBreakParse _ _ _ heq
        · split
          · rename_i node heq
            exact nodeAll_structuralOK_headingParse _ _ _ heq
          · exact nodeAll_structuralOK_paragraphParse _

theorem nodeAll_structuralOK_bqParseText (text : List Char) (node : Node)
    (h : bqParseText text = some node) : NodeAll structuralOK node :=
  nodeAll_structuralOK_bqParseTextP _ _ _
    (nodeAll_structuralOK_pbsF (text.length + 1)) h

theorem parseItemLinesP_sok (p : List Char → Node) (ils : List ItemLine)
    (hp : ∀ t, NodeAll structuralOK (p t)) :
    allSOK (parseItemLinesP p ils) := by
  unfold parseItemLinesP
  split
  · unfold parseItemLinesWithTextOnlyP
    intro c hc
    rw [List.mem_flatMap] at hc
    obtain ⟨chunk, _, hcm⟩ := hc
    revert hcm
    dsimp only
    split
    · intro hcm
      simp only [List.mem_singleton] at hcm
      subst hcm
      exact nodeAll_structuralOK_paragraphParse _
    · split
      · rename_i cs heq
        intro hcm
        have h2 := (hp (joinNL (List.map (fun l => l.content) chunk.1))).children
        rw [heq] at h2
        exact h2 c (by simpa [childrenOf] using hcm)
      · intro hcm
        simp only [List.mem_singleton] at hcm
        subst hcm
        exact hp _
  · intro c hc
    revert hc
    split
    · rename_i cs heq
      intro hc
      have h2 := (hp (joinNL (ils.map (fun l => l.content)))).children
      rw [heq] at h2
      exact h2 c (by simpa [childrenOf] using hc)
    · intro hc
      simp only [List.mem_singleton] at hc
      subst hc
      exact hp _

theorem finalizeListP_sok (p : List Char → Node) (f : ListItemStart)
    (items : List (List ItemLine)) (cur : List ItemLine) (tight : Bool)
    (children : List Node) (hch : allSOK children)
    (hp : ∀ t, NodeAll structuralOK (p t)) :
    allSOK (finalizeListP p f items cur tight children) := by
  unfold finalizeListP
  apply allSOK_append_one hch
  refine ⟨_, ?_, ?_⟩
  · cases hm : f.marker with
    | bullet c => simp [structuralOK, ListMarker.toListType]
    | ordered s d => simp [structuralOK, ListMarker.toListType]
  · intro c hc
    simp only [childrenOf, List.mem_map] at hc
    obtain ⟨itemLines, _, hi⟩ := hc
    subst hi
    refine ⟨_, trivial, ?_⟩
    intro c2 hc2
    simp only [childrenOf] at hc2
    exact parseItemLinesP_sok p itemLines hp c2 hc2

theorem allSOK_append_two {ns : List Node} {a b : Node} (h : allSOK ns)
    (ha : NodeAll structuralOK a) (hb : NodeAll structuralOK b) :
    allSOK (ns ++ [a, b]) := by
  intro c hc
  rcases List.mem_append.mp hc with h1 | h1
  · exact h c h1
  · rcases List.mem_cons.mp h1 with h2 | h2
    · subst h2; exact ha
    · simp only [List.mem_singleton] at h2
      subst h2
      exact hb

theorem noneStep_sok (line : List Char) (acc : List Node)
    (hacc : allSOK acc) : allSOK (processLineInNone line acc).1 := by
  simp only [processLineInNone]
  repeat' split
  all_goals dsimp only
  all_goals first
  | exact hacc
  | (rename_i node heq
     exact allSOK_append_one hacc
       (nodeAll_structuralOK_thematicBreakParse _ _ _ heq))
  | (rename_i node heq
     exact allSOK_append_one hacc
       (nodeAll_structuralOK_headingParse _ _ _ heq))

theorem paragraphStep_sok (line : List Char) (lines : List (List Char))
    (acc : List Node) (hacc : allSOK acc) :
    allSOK (processLineInParagraph line lines acc).1 := by
  simp only [processLineInParagraph]
  repeat' split
  all_goals dsimp only
  all_goals first
  | exact hacc
  | exact allSOK_append_one hacc (nodeAll_structuralOK_paragraphParse _)
  | (rename_i lv heq
     exact allSOK_append_one hacc (nodeAll_structuralOK_setext lv _))
  | (rename_i node heq
     exact allSOK_append_two hacc (nodeAll_structuralOK_paragraphParse _)
       (nodeAll_structuralOK_thematicBreakParse _ _ _ heq))
  | (rename_i node heq
     exact allSOK_append_two hacc (nodeAll_structuralOK_paragraphParse _)
       (nodeAll_structuralOK_headingParse _ _ _ heq))

theorem codeBlockStep_sok (line : List Char)
    (fstart : CodeBlockFencedStart) (content : List (List Char))
    (acc : List Node) (hacc : allSOK acc) :
    allSOK (processLineInCodeBlock line fstart content acc).1 := by
  simp only [processLineInCodeBlock]
  repeat' split
  all_goals dsimp only
  all_goals first
  | exact hacc
  | exact allSOK_append_one hacc (nodeAll_structuralOK_codeBlock _ _)

theorem blockquoteStep_sok (line : List Char) (lines : List (List Char))
    (acc : List Node) (hacc : allSOK acc) :
    allSOK (processLineInBlockquote line lines acc).1 := by
  simp only [processLineInBlockquote]
  repeat' split
  all_goals dsimp only
  all_goals first
  | exact hacc
  | (rename_i node heq
     exact allSOK_append_one hacc (nodeAll_structuralOK_bqParseText _ _ heq))
  | (rename_i node _ bqNode heq
     exact allSOK_append_one
       (allSOK_append_one hacc (nodeAll_structuralOK_bqParseText _ _ heq))
       (by first
           | exact nodeAll_structuralOK_thematicBreakParse _ _ _
               (by assumption)
           | exact nodeAll_structuralOK_headingParse _ _ _ (by assumption)))
  | (rename_i node heq2
     refine allSOK_append_one hacc ?_
     first
     | exact nodeAll_structuralOK_thematicBreakParse _ _ _ (by assumption)
     | exact nodeAll_structuralOK_headingParse _ _ _ (by assumption))

theorem cbIndentedStep_sok (line : List Char) (lines : List (List Char))
    (pending : Nat) (acc : List Node) (hacc : allSOK acc) :
    allSOK (processLineInCodeBlockIndented line lines pending acc).1 := by
  simp only [processLineInCodeBlockIndented]
  split
  · exact hacc
  · exact hacc
  · exact noneStep_sok line _
      (allSOK_append_one hacc (nodeAll_structuralOK_codeBlock _ _))

theorem listStep_sok (p : List Char → Node) (line : List Char)
    (f : ListItemStart) (items : List (List ItemLine))
    (cur : List ItemLine) (cci : Nat) (tight : Bool) (pending : Nat)
    (acc : List Node) (hacc : allSOK acc)
    (hp : ∀ t, NodeAll structuralOK (p t)) :
    allSOK (processLineInList p line f items cur cci tight pending acc).1 := by
  unfold processLineInList
  split
  · exact noneStep_sok line _ (finalizeListP_sok p f items cur tight acc hacc hp)
  · exact hacc
  · exact hacc
  · exact hacc

theorem processLineP_sok (p : List Char → Node) (line : List Char)
    (ctx : ParsingContext) (acc : List Node) (hacc : allSOK acc)
    (hp : ∀ t, NodeAll structuralOK (p t)) :
    allSOK (processLineP p line ctx acc).1 := by
  cases ctx with
  | idle => exact noneStep_sok line acc hacc
  | codeBlockFenced fstart content =>
    exact codeBlockStep_sok line fstart content acc hacc
  | paragraph lines => exact paragraphStep_sok line lines acc hacc
  | blockquote lines => exact blockquoteStep_sok line lines acc hacc
  | list f items cur cci tight pending =>
    exact listStep_sok p line f items cur cci tight pending acc hacc hp
  | codeBlockIndented lines pending =>
    exact cbIndentedStep_sok line lines pending acc hacc

theorem finalizeContextP_sok (p : List Char → Node) (ctx : ParsingContext)
    (acc : List Node) (hacc : allSOK acc)
    (hp : ∀ t, NodeAll structuralOK (p t)) :
    allSOK (finalizeContextP p ctx acc) := by
  cases ctx with
  | idle => exact hacc
  | codeBlockFenced fstart content =>
    exact allSOK_append_one hacc (nodeAll_structuralOK_codeBlock _ _)
  | paragraph lines =>
    exact allSOK_append_one hacc (nodeAll_structuralOK_paragraphParse _)
  | blockquote lines =>
    simp only [finalizeContextP]
    split
    · rename_i node heq
      exact allSOK_append_one hacc (nodeAll_structuralOK_bqParseText _ _ heq)
    · exact hacc
  | list f items cur cci tight pending =>
    exact finalizeListP_sok p f items cur tight acc hacc hp
  | codeBlockIndented lines pending =>
    exact allSOK_append_one hacc (nodeAll_structuralOK_codeBlock _ _)

theorem runP_sok (p : List Char → Node)
    (hp : ∀ t, NodeAll structuralOK (p t)) :
    ∀ (ls : List (List Char)) (acc : List Node) (ctx : ParsingContext),
    allSOK acc → allSOK (runP p ls acc ctx).1 := by
  intro ls
  induction ls with
  | nil => intro acc ctx hacc; exact hacc
  | cons l ls ih =>
    intro acc ctx hacc
    rw [runP_cons]
    exact ih _ _ (processLineP_sok p l ctx acc hacc hp)

/-- Every node anywhere in a `parseF` result satisfies the structural
invariant. -/
theorem parseF_sok : ∀ (n : Nat) (s : List Char),
    NodeAll structuralOK (parseF n s) := by
  intro n
  induction n with
  | zero =>
    intro s
    refine ⟨_, trivial, ?_⟩
    show ∀ c ∈ childrenOf (parseF 0 s), NodeAll structuralOK c
    simp [parseF, childrenOf]
  | succ n ih =>
    intro s
    rw [parseF_succ]
    split
    · exact ⟨_, trivial, by simp [childrenOf]⟩
    · refine ⟨_, trivial, ?_⟩
      intro c hc
      simp only [childrenOf] at hc
      exact finalizeContextP_sok (parseF n) _ _
        (runP_sok (parseF n) ih _ _ _ allSOK_nil) ih c hc

/-- Every node anywhere in a `parse` result satisfies the structural
invariant. -/
theorem parse_sok (s : List Char) : NodeAll structuralOK (parse s) :=
  parseF_sok _ s

/-! ## Trace semantics of the list accumulator (for the tight/loose law) -/

/-- The varying part of a list context (the first-item start is fixed
for the lifetime of the list). -/
structure ListSt where
  items : List (List ItemLine)
  cur : List ItemLine
  cci : Nat
  tight : Bool
  pending : Nat
  deriving Repr

/-- The context update a line causes while a list is open (`none` when
the list closes and the line is replayed); this is exactly the context
arithmetic of `process_line_in_list`. -/
def listStepView (f : ListItemStart) (st : ListSt) (line : List Char) :
    Option ListSt :=
  match listTryEnd line f.marker f.contentIndent st.cci with
  | .reprocess => none
  | .blank => some { st with pending := st.pending + 1 }
  | .newItem ns =>
    some { items := st.items ++ [st.cur],
           cur := [ItemLine.lineText ns.content], cci := ns.contentIndent,
           tight := st.tight && st.pending = 0, pending := 0 }
  | .continuation il =>
    some { st with
           cur := st.cur ++ List.replicate st.pending ItemLine.lineBlank ++
             [il],
           tight := st.tight && st.pending = 0, pending := 0 }

/-- `process_line_in_list` is the state update of `listStepView`, plus
finalize-and-replay when the list closes. -/
theorem processLineInList_eq_view (p : List Char → Node) (line : List Char)
    (f : ListItemStart) (st : ListSt) (acc : List Node) :
    processLineInList p line f st.items st.cur st.cci st.tight st.pending
        acc =
      match listStepView f st line with
      | some st' =>
        (acc, .list f st'.items st'.cur st'.cci st'.tight st'.pending)
      | none =>
        processLineInNone line
          (finalizeListP p f st.items st.cur st.tight acc) := by
  unfold processLineInList listStepView
  rcases h : listTryEnd line f.marker f.contentIndent st.cci with _ | _ | ns | il
  all_goals simp [h]

/-- Run the list accumulator over a sequence of lines; `none` when the
list closed at some line. -/
def runListView (f : ListItemStart) : ListSt → List (List Char) →
    Option ListSt
  | st, [] => some st
  | st, l :: ls =>
    match listStepView f st l with
    | none => none
    | some st' => runListView f st' ls

/-- Some upcoming line extends the list (a new item or a continuation
line) before the list closes. -/
def extendsBeforeExit (f : ListItemStart) : ListSt → List (List Char) →
    Bool
  | _, [] => false
  | st, l :: ls =>
    match listTryEnd l f.marker f.contentIndent st.cci with
    | .reprocess => false
    | .blank => extendsBeforeExit f { st with pending := st.pending + 1 } ls
    | .newItem _ => true
    | .continuation _ => true

/-- A blank line is consumed and the list is later extended (a new item
or continuation) before it closes: the blank sits between or within
items rather than trailing the list. -/
def interiorBlank (f : ListItemStart) : ListSt → List (List Char) → Bool
  | _, [] => false
  | st, l :: ls =>
    match listTryEnd l f.marker f.contentIndent st.cci with
    | .reprocess => false
    | .blank =>
      extendsBeforeExit f { st with pending := st.pending + 1 } ls ||
        interiorBlank f { st with pending := st.pending + 1 } ls
    | .newItem ns =>
      interiorBlank f
        { items := st.items ++ [st.cur],
          cur := [ItemLine.lineText ns.content], cci := ns.contentIndent,
          tight := st.tight && st.pending = 0, pending := 0 } ls
    | .continuation il =>
      interiorBlank f
        { st with
          cur := st.cur ++ List.replicate st.pending ItemLine.lineBlank ++
            [il],
          tight := st.tight && st.pending = 0, pending := 0 } ls

/-- The tight flag after any run of the list accumulator: it is the
incoming flag, cleared exactly when a consumed blank line is later
followed by an item-extending line (and additionally cleared when
pending blanks carried into the run are followed by an extension). -/
theorem runListView_tight : ∀ (ls : List (List Char)) (f : ListItemStart)
    (st st' : ListSt), runListView f st ls = some st' →
    st'.tight = (st.tight && !(interiorBlank f st ls) &&
      (decide (st.pending = 0) || !(extendsBeforeExit f st ls))) := by
  intro ls
  induction ls with
  | nil =>
    intro f st st' h
    simp only [runListView, Option.some.injEq] at h
    subst h
    simp [interiorBlank, extendsBeforeExit]
  | cons l ls ih =>
    intro f st st' h
    simp only [runListView, listStepView] at h
    rcases hE : listTryEnd l f.marker f.contentIndent st.cci
      with _ | _ | ns | il <;> rw [hE] at h
    · simp at h
    · simp only at h
      have := ih f _ st' h
      rw [this]
      simp only [interiorBlank, extendsBeforeExit, hE]
      cases hib : interiorBlank f { st with pending := st.pending + 1 } ls <;>
        cases hebe : extendsBeforeExit f { st with pending := st.pending + 1 }
          ls <;> cases st.tight <;> simp
    · simp only at h
      have := ih f _ st' h
      rw [this]
      simp only [interiorBlank, extendsBeforeExit, hE]
      cases hib : interiorBlank f
        { items := st.items ++ [st.cur],
          cur := [ItemLine.lineText ns.content], cci := ns.contentIndent,
          tight := st.tight && st.pending = 0, pending := 0 } ls <;>
        cases hpend : decide (st.pending = 0) <;> cases st.tight <;> simp_all
    · simp only at h
      have := ih f _ st' h
      rw [this]
      simp only [interiorBlank, extendsBeforeExit, hE]
      cases hib : interiorBlank f
        { st with
          cur := st.cur ++ List.replicate st.pending ItemLine.lineBlank ++
            [il],
          tight := st.tight && st.pending = 0, pending := 0 } ls <;>
        cases hpend : decide (st.pending = 0) <;> cases st.tight <;> simp_all

/-! ## Claim-support lemmas -/

/-- `parse` always returns a `Document` node. -/
theorem parse_document (s : List Char) : ∃ cs, parse s = Node.document cs := by
  unfold parse
  rw [parseF_succ]
  split
  · exact ⟨[], rfl⟩
  · exact ⟨_, rfl⟩

/-- The buffered lines of a `ListItem` without any force-plain-text flag
are re-parsed exactly as a standalone `parse` of the joined inner text:
the item's children are the standalone document's children. -/
theorem parseItemLines_standalone (n : Nat) (ils : List ItemLine)
    (hto : ∀ l ∈ ils, l.textOnly = false)
    (hn : (joinNL (ils.map (fun l => l.content))).length < n) :
    ∃ cs, parse (joinNL (ils.map (fun l => l.content))) = Node.document cs ∧
      parseItemLinesP (parseF n) ils = cs := by
  obtain ⟨cs, hcs⟩ := parse_document (joinNL (ils.map (fun l => l.content)))
  refine ⟨cs, hcs, ?_⟩
  unfold parseItemLinesP
  have hany : (ils.any fun l => l.textOnly) = false := by
    rw [List.any_eq_false]
    intro l hl
    simp [hto l hl]
  rw [hany]
  simp only [Bool.false_eq_true, if_false]
  rw [parseF_stable n _ hn, hcs]

theorem linesGo_append_newline : ∀ (s cur : List Char),
    (s = [] → cur ≠ [] ∧ cur.head? ≠ some '\r') →
    (∀ c, s.getLast? = some c → c ≠ '\n' ∧ c ≠ '\r') →
    linesGo cur (s ++ ['\n']) = linesGo cur s := by
  intro s
  induction s with
  | nil =>
    intro cur h1 h2
    obtain ⟨hne, hcr⟩ := h1 rfl
    show linesGo cur ['\n'] = linesGo cur []
    unfold linesGo
    rw [if_pos rfl]
    unfold linesGo
    rw [if_neg hne]
    have : stripCR cur.reverse = cur.reverse := by
      unfold stripCR
      rw [if_neg]
      rw [List.getLast?_reverse]
      exact hcr
    rw [this]
    rfl
  | cons c s ih =>
    intro cur h1 h2
    show linesGo cur ((c :: s) ++ ['\n']) = linesGo cur (c :: s)
    by_cases hc : c = '\n'
    · subst hc
      have hsne : s ≠ [] := by
        intro he
        subst he
        exact (h2 '\n' (by simp)).1 rfl
      simp only [List.cons_append]
      unfold linesGo
      rw [if_pos rfl, if_pos rfl]
      congr 1
      apply ih
      · intro he
        exact absurd he hsne
      · intro e he
        apply h2
        cases s with
        | nil => exact absurd rfl hsne
        | cons d s2 =>
          rw [List.getLast?_cons_cons]
          exact he
    · simp only [List.cons_append]
      unfold linesGo
      rw [if_neg hc, if_neg hc]
      apply ih
      · intro he
        subst he
        refine ⟨by simp, ?_⟩
        have := h2 c (by simp)
        simp [this.2]
      · intro e he
        apply h2
        cases s with
        | nil => simp at he
        | cons d s2 =>
          rw [List.getLast?_cons_cons]
          exact he

theorem linesOf_append_newline (s : List Char) (hne : s ≠ [])
    (h1 : s.getLast? ≠ some '\n') (h2 : s.getLast? ≠ some '\r') :
    linesOf (s ++ ['\n']) = linesOf s := by
  unfold linesOf
  apply linesGo_append_newline
  · intro he; exact absurd he hne
  · intro c hc
    constructor
    · intro h; rw [h] at hc; exact h1 hc
    · intro h; rw [h] at hc; exact h2 hc

/-- Appending one `'\n'` to an input that does not already end in a
newline or carriage return leaves the parse unchanged. -/
theorem parse_append_newline (s : List Char)
    (h1 : s.getLast? ≠ some '\n') (h2 : s.getLast? ≠ some '\r') :
    parse (s ++ ['\n']) = parse s := by
  by_cases hne : s = []
  · subst hne
    rfl
  · have hlines := linesOf_append_newline s hne h1 h2
    show parseF ((s ++ ['\n']).length + 1) (s ++ ['\n']) =
      parseF (s.length + 1) s
    have hlen : (s ++ ['\n']).length = s.length + 1 := by simp
    rw [hlen, parseF_succ, parseF_succ,
      if_neg (by simp), if_neg hne, hlines]
    have hagr : ∀ t : List Char, t.length + 1 ≤ thr .idle (linesOf s) →
        parseF (s.length + 1) t = parseF s.length t := by
      intro t ht
      simp only [thr] at ht
      have hbud := lineBudget_linesOf s
      rw [parseF_stable _ _ (by omega), parseF_stable _ _ (by omega)]
    have hcong := runFinalCong (parseF (s.length + 1)) (parseF s.length)
      (linesOf s) .idle [] trivial hagr
    rw [hcong.2]

/-- The head of the marker region of a recognized list-item start line:
the character right after the counted leading spaces is the bullet
character or an ASCII digit. -/
theorem tryStart_drop_head (line : List Char) (st : ListItemStart)
    (h : listItemTryStart line = .started st) :
    ∃ c rest, line.drop (countLeadingChar line ' ') = c :: rest ∧
      ((∃ b, st.marker = .bullet b ∧ c = b ∧
        (b = '-' ∨ b = '+' ∨ b = '*')) ∨
       (48 ≤ c.toNat ∧ c.toNat ≤ 57)) := by
  simp only [listItemTryStart] at h
  split at h
  · exact absurd h (by simp)
  · split at h
    · rename_i s hs
      simp only [ListItemTryStart.started.injEq] at h
      subst h
      simp only [tryBulletMarker] at hs
      cases hd : line.drop (countLeadingChar line ' ') with
      | nil => rw [hd] at hs; simp at hs
      | cons c rest =>
        rw [hd] at hs
        refine ⟨c, rest, rfl, Or.inl ⟨c, ?_⟩⟩
        simp only at hs
        split at hs
        · simp at hs
        · rename_i hc
          rw [not_and_or, not_and_or] at hc
          have hcin : c = '-' ∨ c = '+' ∨ c = '*' := by
            rcases hc with hc | hc | hc <;> simp at hc <;> tauto
          split at hs
          · simp only [Option.some.injEq] at hs
            subst hs
            exact ⟨rfl, rfl, hcin⟩
          · split at hs
            · simp at hs
            · split at hs
              · simp at hs
              · simp only [Option.some.injEq] at hs
                subst hs
                exact ⟨rfl, rfl, hcin⟩
    · split at h
      · rename_i s hs
        simp only [ListItemTryStart.started.injEq] at h
        subst h
        simp only [tryOrderedMarker] at hs
        split at hs
        · simp at hs
        · rename_i hnum
          cases hd : line.drop (countLeadingChar line ' ') with
          | nil =>
            rw [hd] at hnum
            simp at hnum
          | cons c rest =>
            refine ⟨c, rest, rfl, Or.inr ?_⟩
            rw [hd] at hnum
            rw [not_or] at hnum
            have hdig : c.isDigit = true := by
              by_contra hnd
              simp only [Bool.not_eq_true] at hnd
              apply hnum.1
              simp [List.takeWhile_cons, hnd]
            have : ('0' ≤ c ∧ c ≤ '9') := by
              simpa [Char.isDigit, Bool.and_eq_true, decide_eq_true_iff]
                using hdig
            obtain ⟨hl, hr⟩ := this
            rw [Char.le_def] at hl hr
            constructor
            · exact hl
            · exact hr
      · exact absurd h (by simp)

/-- An ASCII digit is not Rust whitespace. -/
theorem isWS_digit_false (c : Char) (h : 48 ≤ c.toNat ∧ c.toNat ≤ 57) :
    isWS c = false := by
  simp only [isWS, decide_eq_false_iff_not]
  omega

/-! ## Shape lemmas for marker lines -/

theorem trimR_eq_nil_iff (s : List Char) :
    trimR s = [] ↔ ∀ c ∈ s, isWS c = true := by
  unfold trimR trimEnd trimStart
  constructor
  · intro h c hc
    rw [List.reverse_eq_nil_iff, List.dropWhile_eq_nil_iff] at h
    by_cases hmem : c ∈ List.dropWhile (fun c => isWS c) s
    · exact h c (by simpa using hmem)
    · have hsplit := List.takeWhile_append_dropWhile (p := fun c => isWS c)
        (l := s)
      rw [← hsplit] at hc
      rcases List.mem_append.mp hc with h2 | h2
      · exact List.mem_takeWhile_imp h2
      · exact absurd h2 hmem
  · intro h
    rw [List.reverse_eq_nil_iff, List.dropWhile_eq_nil_iff]
    intro c hc
    apply h
    have : c ∈ List.dropWhile (fun c => isWS c) s := by simpa using hc
    exact (List.dropWhile_sublist _).subset this

theorem listItemTryStart_not_blank (line : List Char) (st : ListItemStart)
    (h : listItemTryStart line = .started st) : isBlank line = false := by
  obtain ⟨c, rest, hd, hkind⟩ := tryStart_drop_head line st h
  have hws : isWS c = false := by
    rcases hkind with ⟨b, _, hcb, hb⟩ | hdig
    · subst hcb
      rcases hb with hb | hb | hb <;> subst hb <;> decide
    · exact isWS_digit_false c hdig
  rw [isBlank, decide_eq_false_iff_not]
  intro hnil
  rw [trimR_eq_nil_iff] at hnil
  have hcmem : c ∈ line := by
    have : c ∈ line.drop (countLeadingChar line ' ') := by
      rw [hd]; simp
    exact List.mem_of_mem_drop this
  rw [hnil c hcmem] at hws
  simp at hws

theorem takeWhile_space_eq_replicate (line : List Char) :
    line.takeWhile (fun ch => ch = ' ') =
      List.replicate (countLeadingChar line ' ') ' ' := by
  rw [List.eq_replicate_iff]
  refine ⟨rfl, ?_⟩
  intro b hb
  have := List.mem_takeWhile_imp hb
  simpa using this

theorem drop_count_eq_dropWhile (line : List Char) :
    line.drop (countLeadingChar line ' ') =
      line.dropWhile (fun ch => ch = ' ') := by
  have h := List.takeWhile_append_dropWhile
    (p := fun ch => decide (ch = ' ')) (l := line)
  nth_rewrite 2 [← h]
  rw [countLeadingChar, List.drop_left]

theorem line_decomp (line : List Char) :
    line = List.replicate (countLeadingChar line ' ') ' ' ++
      line.drop (countLeadingChar line ' ') := by
  conv_lhs => rw [← List.takeWhile_append_dropWhile
    (p := fun ch => decide (ch = ' ')) (l := line)]
  rw [takeWhile_space_eq_replicate, drop_count_eq_dropWhile]

theorem trimStart_spaces (n : Nat) (l : List Char) :
    trimStart (List.replicate n ' ' ++ l) = trimStart l := by
  induction n with
  | zero => simp
  | succ n ih =>
    rw [List.replicate_succ, List.cons_append]
    show trimStart (' ' :: (List.replicate n ' ' ++ l)) = trimStart l
    unfold trimStart at ih ⊢
    rw [List.dropWhile_cons]
    simpa using ih

theorem trimStart_cons_not_ws (c : Char) (l : List Char)
    (hc : isWS c = false) : trimStart (c :: l) = c :: l := by
  unfold trimStart
  rw [List.dropWhile_cons]
  simp [hc]

theorem dropWhile_append_last (x : Char) (hx : isWS x = false)
    (ys : List Char) :
    List.dropWhile (fun c => isWS c) (ys ++ [x]) ≠ [] ∧
    (List.dropWhile (fun c => isWS c) (ys ++ [x])).getLast? = some x := by
  induction ys with
  | nil =>
    simp [List.dropWhile_cons, hx]
  | cons y ys ih =>
    rw [List.cons_append, List.dropWhile_cons]
    by_cases hy : isWS y = true
    · simp only [hy]
      simpa using ih
    · simp only [Bool.not_eq_true] at hy
      simp only [hy, Bool.false_eq_true, if_false]
      refine ⟨by simp, ?_⟩
      rw [← List.cons_append]
      exact List.getLast?_concat _

theorem trimEnd_head (x : Char) (xs : List Char) (hx : isWS x = false) :
    trimEnd (x :: xs) ≠ [] ∧ (trimEnd (x :: xs)).head? = some x := by
  unfold trimEnd
  have hrev : (x :: xs).reverse = xs.reverse ++ [x] := by simp
  rw [hrev]
  have h := dropWhile_append_last x hx xs.reverse
  constructor
  · intro hcontra
    rw [List.reverse_eq_nil_iff] at hcontra
    exact h.1 hcontra
  · rw [List.head?_reverse]
    exact h.2

/-- The trimmed form of a line whose marker head is a non-whitespace
character `c` starts with `c`. -/
theorem trimR_marker_head (line : List Char) (c : Char) (rest : List Char)
    (hd : line.drop (countLeadingChar line ' ') = c :: rest)
    (hc : isWS c = false) :
    ∃ t, trimR line = c :: t := by
  have hdecomp := line_decomp line
  rw [hd] at hdecomp
  unfold trimR
  rw [hdecomp, trimStart_spaces, trimStart_cons_not_ws c rest hc]
  have h := trimEnd_head c rest hc
  cases he : trimEnd (c :: rest) with
  | nil => exact absurd he h.1
  | cons d t =>
    rw [he] at h
    simp only [List.head?_cons, Option.some.injEq] at h
    exact ⟨t, by rw [h.2]⟩

theorem trimR_marker_singleton (n k : Nat) (c : Char)
    (hc : isWS c = false) :
    trimR (List.replicate n ' ' ++ c :: List.replicate k ' ') = [c] := by
  unfold trimR
  rw [trimStart_spaces, trimStart_cons_not_ws c _ hc]
  unfold trimEnd
  have hrev : (c :: List.replicate k ' ').reverse =
      List.replicate k ' ' ++ [c] := by simp
  rw [hrev, trimStart_spaces, trimStart_cons_not_ws c [] hc]
  simp

/-- An empty-content bullet item line is nothing but spaces, the bullet
character, and trailing spaces. -/
theorem bulletEmpty_shape (line : List Char) (st : ListItemStart) (b : Char)
    (h : listItemTryStart line = .started st) (hm : st.marker = .bullet b)
    (hc0 : st.content = []) :
    line = List.replicate (countLeadingChar line ' ') ' ' ++
      b :: List.replicate (line.length - countLeadingChar line ' ' - 1)
        ' ' ∧
    countLeadingChar line ' ' ≤ 3 := by
  simp only [listItemTryStart] at h
  split at h
  · exact absurd h (by simp)
  · rename_i hind
    split at h
    · rename_i s hs
      simp only [ListItemTryStart.started.injEq] at h
      subst h
      simp only [tryBulletMarker] at hs
      cases hd : line.drop (countLeadingChar line ' ') with
      | nil => rw [hd] at hs; simp at hs
      | cons c0 rest =>
        rw [hd] at hs
        simp only at hs
        have hlen : line.length =
            countLeadingChar line ' ' + 1 + rest.length := by
          have h1 := countLeadingChar_le line ' '
          have h2 : (line.drop (countLeadingChar line ' ')).length =
              line.length - countLeadingChar line ' ' := List.length_drop _ _
          rw [hd] at h2
          simp only [List.length_cons] at h2
          omega
        split at hs
        · simp at hs
        · split at hs
          · -- rest = []
            rename_i hrest
            subst hrest
            simp only [Option.some.injEq] at hs
            subst hs
            have hmb : c0 = b := by
              have h3 : ListMarker.bullet c0 = ListMarker.bullet b := hm
              injection h3
            subst hmb
            refine ⟨?_, by omega⟩
            simp only [List.length_nil] at hlen
            rw [show line.length - countLeadingChar line ' ' - 1 = 0 by
              omega]
            have hdec := line_decomp line
            rw [hd] at hdec
            simpa using hdec
          · rename_i hrne
            split at hs
            · simp at hs
            · rename_i a2 rest2
              split at hs
              · simp at hs
              · rename_i hwsp
                simp only [Option.some.injEq] at hs
                subst hs
                have hmb : c0 = b := by
                  have h3 : ListMarker.bullet c0 = ListMarker.bullet b := hm
                  injection h3
                subst hmb
                have hc4 : (if countLeadingChar line ' ' + 1 +
                      min (countLeadingChar (a2 :: rest2) ' ') 4 ≥ line.length
                    then ([] : List Char)
                    else line.drop (countLeadingChar line ' ' + 1 +
                      min (countLeadingChar (a2 :: rest2) ' ') 4)) = [] := hc0
                split at hc4
                · rename_i hge
                  have hsp_le := countLeadingChar_le (a2 :: rest2) ' '
                  have hsp_eq : countLeadingChar (a2 :: rest2) ' ' = (a2 :: rest2).length := by
                    omega
                  have hrest_rep : a2 :: rest2 = List.replicate (a2 :: rest2).length ' ' := by
                    have hsub : List.Sublist
                        ((a2 :: rest2).takeWhile (fun ch => ch = ' ')) (a2 :: rest2) :=
                      List.takeWhile_sublist _
                    have heq : (a2 :: rest2).takeWhile (fun ch => ch = ' ') =
                        a2 :: rest2 :=
                      hsub.eq_of_length hsp_eq
                    rw [List.eq_replicate_iff]
                    refine ⟨rfl, ?_⟩
                    intro x hx
                    rw [← heq] at hx
                    have := List.mem_takeWhile_imp hx
                    simpa using this
                  refine ⟨?_, by omega⟩
                  rw [show line.length - countLeadingChar line ' ' - 1 =
                    (a2 :: rest2).length by omega]
                  have hdec := line_decomp line
                  rw [hd] at hdec
                  nth_rewrite 1 [hdec]
                  rw [← hrest_rep]
                · rename_i hlt
                  exfalso
                  simp only [not_le] at hlt
                  have hlen2 := List.length_drop
                    (countLeadingChar line ' ' + 1 +
                      min (countLeadingChar (a2 :: rest2) ' ') 4) line
                  rw [hc4] at hlen2
                  simp only [List.length_nil] at hlen2
                  omega
    · split at h
      · rename_i s hs
        simp only [ListItemTryStart.started.injEq] at h
        subst h
        exfalso
        simp only [tryOrderedMarker] at hs
        repeat' split at hs
        all_goals first
        | (simp only [Option.some.injEq] at hs
           subst hs
           exact absurd hm (by
             intro h4
             have h5 : ∃ k d, ListMarker.ordered k d = ListMarker.bullet b :=
               ⟨_, _, h4⟩
             obtain ⟨k, d, h6⟩ := h5
             exact ListMarker.noConfusion h6))
        | simp at hs
      · exact absurd h (by simp)
theorem takeWhile_st_replicate (n : Nat) (l : List Char) :
    List.takeWhile (fun ch => ch = ' ' ∨ ch = '\t')
        (List.replicate n ' ' ++ l) =
      List.replicate n ' ' ++
        List.takeWhile (fun ch => ch = ' ' ∨ ch = '\t') l := by
  induction n with
  | zero => simp
  | succ n ih =>
    rw [List.replicate_succ, List.cons_append, List.takeWhile_cons]
    simp only [ih]
    simp

theorem calculateIndent_shape (n k : Nat) (c : Char) (hc1 : c ≠ ' ')
    (hc2 : c ≠ '\t') :
    calculateIndent (List.replicate n ' ' ++ c :: List.replicate k ' ') =
      n := by
  unfold calculateIndent
  rw [takeWhile_st_replicate, List.takeWhile_cons]
  have hpf : (decide (c = ' ' ∨ c = '\t')) = false := by
    simp [hc1, hc2]
  rw [hpf]
  simp

/-- A setext probe fails whenever the end-trimmed line starts with a
character other than `=` or `-`. -/
theorem setext_none_of_head (t : List Char) (ind : Nat) (c : Char)
    (t2 : List Char) (hte : trimEnd t = c :: t2) (h1 : c ≠ '=')
    (h2 : c ≠ '-') : headingSetextTryStart t ind = none := by
  unfold headingSetextTryStart
  split
  · rfl
  · rw [hte]
    simp [h1, h2]

/-- A thematic-break probe fails whenever the trimmed line starts with a
character other than `*`, `-` or `_`. -/
theorem thematic_none_of_head (c : Char) (t2 : List Char) (ind : Nat)
    (h1 : c ≠ '*') (h2 : c ≠ '-') (h3 : c ≠ '_') :
    thematicBreakParse (c :: t2) ind = none := by
  unfold thematicBreakParse
  split
  · rfl
  · simp [h1, h2, h3]

/-- A single-character line is never a thematic break (fewer than three
marker characters). -/
theorem thematic_none_singleton (c : Char) (ind : Nat) :
    thematicBreakParse [c] ind = none := by
  unfold thematicBreakParse
  split
  · rfl
  · simp only
    split
    · rfl
    · split
      · split
        · rename_i hcnt
          exfalso
          have : (List.filter (fun x => decide (x = c)) [c]).length ≤ 1 := by
            simp
          omega
        · rfl
      · rfl

/-- An ATX-heading probe fails whenever the trimmed line does not start
with `#`. -/
theorem heading_none_of_head (c : Char) (t2 : List Char) (ind : Nat)
    (h1 : c ≠ '#') : headingParse (c :: t2) ind = none := by
  unfold headingParse
  split
  · rfl
  · simp [h1]

/-- A fenced-code start probe fails whenever the character after the
leading spaces is not a backtick or tilde. -/
theorem fenced_none_of_head (line : List Char) (c : Char) (rest : List Char)
    (hd : line.drop (countLeadingChar line ' ') = c :: rest)
    (h1 : c ≠ '`') (h2 : c ≠ '~') : fencedTryStart line = none := by
  simp only [fencedTryStart]
  split
  · rfl
  · rw [hd]
    have ht : (c :: rest).take 3 = c :: rest.take 2 := by simp
    rw [ht]
    simp [h1, h2]

theorem drop_replicate_space (n : Nat) (l : List Char) :
    (List.replicate n ' ' ++ l).drop n = l := by
  have h := List.drop_left (List.replicate n ' ') l
  rw [List.length_replicate] at h
  exact h

/-- A lone `-` empty-item marker under an open paragraph acts as a
setext underline: the paragraph is promoted to a level-2 heading, not
swallowed and not opened as a list. -/
theorem paragraphStep_dash_empty (line : List Char)
    (lines : List (List Char)) (acc : List Node) (st : ListItemStart)
    (h : listItemTryStart line = .started st) (hm : st.marker = .bullet '-')
    (hc0 : st.content = []) :
    processLineInParagraph line lines acc =
      (acc ++ [Node.heading 2 [Node.text (joinNL lines)]], .idle) := by
  obtain ⟨hshape, hind⟩ := bulletEmpty_shape line st '-' h hm hc0
  have hnb := listItemTryStart_not_blank line st h
  have hd : line.drop (countLeadingChar line ' ') =
      '-' :: List.replicate (line.length - countLeadingChar line ' ' - 1)
        ' ' := by
    conv_lhs => rw [hshape]
    have hc := countLeadingChar_le line ' '
    rw [show countLeadingChar
        (List.replicate (countLeadingChar line ' ') ' ' ++
          '-' :: List.replicate
            (line.length - countLeadingChar line ' ' - 1) ' ') ' ' =
      countLeadingChar line ' ' from by
        conv_rhs => rw [hshape]]
    exact drop_replicate_space _ _
  have htrim : trimR line = ['-'] := by
    conv_lhs => rw [hshape]
    exact trimR_marker_singleton _ _ _ (by decide)
  have hcalc : calculateIndent line = countLeadingChar line ' ' := by
    conv_lhs => rw [hshape]
    exact calculateIndent_shape _ _ _ (by decide) (by decide)
  have hfen : fencedTryStart line = none :=
    fenced_none_of_head line '-' _ hd (by decide) (by decide)
  have hset : headingSetextTryStart (trimR line) (calculateIndent line) =
      some .level2 := by
    rw [htrim, hcalc]
    unfold headingSetextTryStart
    rw [if_neg (by omega)]
    rfl
  simp only [processLineInParagraph, hnb, Bool.false_eq_true, if_false,
    hfen, hset, SetextLevel.toLevel]

theorem trimEnd_singleton (b : Char) (hb : isWS b = false) :
    trimEnd [b] = [b] := by
  unfold trimEnd
  rw [show ([b] : List Char).reverse = [b] by simp]
  rw [trimStart_cons_not_ws b [] hb]
  simp

/-- An empty-item marker other than a lone `-` never interrupts an open
paragraph: the line is swallowed as a trimmed continuation. -/
theorem paragraphStep_empty_swallow (line : List Char)
    (lines : List (List Char)) (acc : List Node) (st : ListItemStart)
    (h : listItemTryStart line = .started st) (hc0 : st.content = [])
    (hnd : st.marker ≠ .bullet '-') :
    processLineInParagraph line lines acc =
      (acc, .paragraph (lines ++ [trimR line])) := by
  have hnb := listItemTryStart_not_blank line st h
  obtain ⟨c, rest, hd, hkind⟩ := tryStart_drop_head line st h
  rcases hkind with ⟨b, hmB, hcb, hbIn⟩ | hdig
  · subst hcb
    have hbne : c ≠ '-' := by
      intro hb
      subst hb
      exact hnd hmB
    have hbws : isWS c = false := by
      rcases hbIn with hb | hb | hb <;> subst hb <;> decide
    obtain ⟨hshape, hind⟩ := bulletEmpty_shape line st c h hmB hc0
    have htrim : trimR line = [c] := by
      conv_lhs => rw [hshape]
      exact trimR_marker_singleton _ _ _ hbws
    have hb1 : c ≠ '`' := by
      rcases hbIn with hb | hb | hb <;> subst hb <;> decide
    have hb2 : c ≠ '~' := by
      rcases hbIn with hb | hb | hb <;> subst hb <;> decide
    have hb3 : c ≠ '=' := by
      rcases hbIn with hb | hb | hb <;> subst hb <;> decide
    have hb4 : c ≠ '#' := by
      rcases hbIn with hb | hb | hb <;> subst hb <;> decide
    have hb5 : c ≠ '>' := by
      rcases hbIn with hb | hb | hb <;> subst hb <;> decide
    have hfen : fencedTryStart line = none :=
      fenced_none_of_head line c rest hd hb1 hb2
    have hset : headingSetextTryStart (trimR line)
        (calculateIndent line) = none := by
      rw [htrim]
      exact setext_none_of_head [c] _ c [] (trimEnd_singleton c hbws)
        hb3 hbne
    have hthem : thematicBreakParse (trimR line)
        (calculateIndent line) = none := by
      rw [htrim]
      exact thematic_none_singleton c _
    have hhead : headingParse (trimR line) (calculateIndent line) =
        none := by
      rw [htrim]
      exact heading_none_of_head c [] _ hb4
    have hbqF : ((trimR line).headI = '>' ∧ trimR line ≠ [] ∧
        calculateIndent line ≤ 3) = False := by
      apply eq_false
      rintro ⟨h1, -, -⟩
      rw [htrim] at h1
      simp only [List.headI] at h1
      exact hb5 h1
    simp only [processLineInParagraph, hnb, Bool.false_eq_true, if_false,
      hfen, hset, hthem, hhead, hbqF, h, hc0]
    simp
  · have hdws : isWS c = false := isWS_digit_false c hdig
    obtain ⟨t, htrim⟩ := trimR_marker_head line c rest hd hdws
    have hb1 : c ≠ '`' := by
      intro he; subst he; exact absurd hdig (by decide)
    have hb2 : c ≠ '~' := by
      intro he; subst he; exact absurd hdig (by decide)
    have hb3 : c ≠ '=' := by
      intro he; subst he; exact absurd hdig (by decide)
    have hb4 : c ≠ '#' := by
      intro he; subst he; exact absurd hdig (by decide)
    have hb5 : c ≠ '>' := by
      intro he; subst he; exact absurd hdig (by decide)
    have hb6 : c ≠ '*' := by
      intro he; subst he; exact absurd hdig (by decide)
    have hb7 : c ≠ '-' := by
      intro he; subst he; exact absurd hdig (by decide)
    have hb8 : c ≠ '_' := by
      intro he; subst he; exact absurd hdig (by decide)
    have hfen : fencedTryStart line = none :=
      fenced_none_of_head line c rest hd hb1 hb2
    have hte : ∃ t2, trimEnd (trimR line) = c :: t2 := by
      rw [htrim]
      have hh := trimEnd_head c t hdws
      cases he : trimEnd (c :: t) with
      | nil => exact absurd he hh.1
      | cons d t2 =>
        rw [he] at hh
        simp only [List.head?_cons, Option.some.injEq] at hh
        exact ⟨t2, by rw [hh.2]⟩
    obtain ⟨t2, hte⟩ := hte
    have hset : headingSetextTryStart (trimR line)
        (calculateIndent line) = none :=
      setext_none_of_head _ _ c t2 hte hb3 hb7
    have hthem : thematicBreakParse (trimR line)
        (calculateIndent line) = none := by
      rw [htrim]
      exact thematic_none_of_head c t _ hb6 hb7 hb8
    have hhead : headingParse (trimR line) (calculateIndent line) =
        none := by
      rw [htrim]
      exact heading_none_of_head c t _ hb4
    have hbqF : ((trimR line).headI = '>' ∧ trimR line ≠ [] ∧
        calculateIndent line ≤ 3) = False := by
      apply eq_false
      rintro ⟨h1, -, -⟩
      rw [htrim] at h1
      simp only [List.headI] at h1
      exact hb5 h1
    simp only [processLineInParagraph, hnb, Bool.false_eq_true, if_false,
      hfen, hset, hthem, hhead, hbqF, h, hc0]
    simp

/-- A non-empty list-item start that is not itself a setext underline or
thematic break closes the paragraph and opens a list. -/
theorem paragraphStep_list_start (line : List Char)
    (lines : List (List Char)) (acc : List Node) (st : ListItemStart)
    (h : listItemTryStart line = .started st) (hc0 : st.content ≠ [])
    (hsetH : headingSetextTryStart (trimR line) (calculateIndent line) =
      none)
    (hthemH : thematicBreakParse (trimR line) (calculateIndent line) =
      none) :
    processLineInParagraph line lines acc =
      (acc ++ [paragraphParse (joinNL lines)],
       .list st [] [ItemLine.lineText st.content] st.contentIndent
         true 0) := by
  have hnb := listItemTryStart_not_blank line st h
  obtain ⟨c, rest, hd, hkind⟩ := tryStart_drop_head line st h
  have hcfacts : c ≠ '`' ∧ c ≠ '~' ∧ c ≠ '#' ∧ c ≠ '>' ∧
      isWS c = false := by
    rcases hkind with ⟨b, hmB, hcb, hbIn⟩ | hdig
    · subst hcb
      rcases hbIn with hb | hb | hb <;> subst hb <;>
        exact ⟨by decide, by decide, by decide, by decide, by decide⟩
    · refine ⟨?_, ?_, ?_, ?_, isWS_digit_false c hdig⟩ <;>
        (intro he; subst he; exact absurd hdig (by decide))
  obtain ⟨hb1, hb2, hb4, hb5, hdws⟩ := hcfacts
  obtain ⟨t, htrim⟩ := trimR_marker_head line c rest hd hdws
  have hfen : fencedTryStart line = none :=
    fenced_none_of_head line c rest hd hb1 hb2
  have hhead : headingParse (trimR line) (calculateIndent line) =
      none := by
    rw [htrim]
    exact heading_none_of_head c t _ hb4
  have hbqF : ((trimR line).headI = '>' ∧ trimR line ≠ [] ∧
      calculateIndent line ≤ 3) = False := by
    apply eq_false
    rintro ⟨h1, -, -⟩
    rw [htrim] at h1
    simp only [List.headI] at h1
    exact hb5 h1
  simp only [processLineInParagraph, hnb, Bool.false_eq_true, if_false,
    hfen, hsetH, hthemH, hhead, hbqF, h]
  simp [hc0]

theorem listTryEnd_diff_type (line : List Char) (marker : ListMarker)
    (fci cci : Nat) (ns : ListItemStart)
    (hind : countLeadingChar line ' ' < cci)
    (hst : listItemTryStart line = .started ns)
    (hdiff : marker.isSameType ns.marker = false) :
    listTryEnd line marker fci cci = .reprocess := by
  have hnb := listItemTryStart_not_blank line ns hst
  simp only [listTryEnd, hnb, Bool.false_eq_true, if_false, eq_true hind,
    if_true, hst, hdiff]

/-- A node predicate for the heading-level bound of the document model:
every `Heading` level lies between 1 and 6. -/
def headingLevelOK (n : Node) : Prop :=
  match n with
  | .heading lv _ => 1 ≤ lv ∧ lv ≤ 6
  | _ => True

/-- A node predicate: every bullet `List` carries start number 1. -/
def bulletStartOK (n : Node) : Prop :=
  match n with
  | .list ListType.bullet s _ _ => s = 1
  | _ => True

end Madang

namespace Madang

/-! ## The claims -/

/-- C1: `parse` is a total, terminating function: every input produces a
`Document` with no failure outcome; `parse ""` has zero children; and the
fuel embedding is stable — every fuel above the input length computes the
same document, so the embedded recursion terminates within the canonical
bound `input.length + 1`. -/
theorem C1_parse_total :
    (∀ s : List Char, ∃ cs, parse s = Node.document cs) ∧
    parse [] = Node.document [] ∧
    (∀ (n : Nat) (s : List Char), s.length < n → parseF n s = parse s) :=
  ⟨parse_document, rfl, parseF_stable⟩

theorem C1_parse_total_witness :
    ("# x".toList.length < 9) ∧
    parseF 9 "# x".toList = parse "# x".toList :=
  ⟨by decide, C1_parse_total.2.2 9 "# x".toList (by decide)⟩

/-- C2 counterexample: the children of a `Blockquote` are produced by the
simplified block parser, not by the top-level `parse`: for input
`"> - a"` the blockquote holds a `Paragraph`, while parsing the
extracted inner text `"- a"` standalone yields a `List`, so the child
sequences differ. -/
theorem C2_counterexample :
    parseStr "> - a" = Node.document
      [Node.blockquote [Node.paragraph [Node.text ['-', ' ', 'a']]]] ∧
    parseStr "- a" = Node.document
      [Node.list ListType.bullet 1 true
        [Node.listItem [Node.paragraph [Node.text ['a']]]]] ∧
    [Node.paragraph [Node.text ['-', ' ', 'a']]] ≠
      [Node.list ListType.bullet 1 true
        [Node.listItem [Node.paragraph [Node.text ['a']]]]] :=
  ⟨rfl, rfl, by simp⟩

/-- C2 (amended): for a `ListItem`, when no buffered line is flagged
force-plain-text, the item's children are exactly the children of a
standalone `parse` of the extracted inner text (the buffered lines
joined by newlines); `Blockquote` children are instead produced by the
simplified chunk parser and need not agree with the top-level `parse`. -/
theorem C2_item_reparse (n : Nat) (ils : List ItemLine)
    (hto : ∀ l ∈ ils, l.textOnly = false)
    (hn : (joinNL (ils.map (fun l => l.content))).length < n) :
    ∃ cs, parse (joinNL (ils.map (fun l => l.content))) =
        Node.document cs ∧
      parseItemLinesP (parseF n) ils = cs :=
  parseItemLines_standalone n ils hto hn

theorem C2_item_reparse_witness :
    (∀ l ∈ [ItemLine.lineText ['a']], l.textOnly = false) ∧
    (joinNL ([ItemLine.lineText ['a']].map (fun l => l.content))).length
      < 3 ∧
    (∃ cs, parse (joinNL ([ItemLine.lineText ['a']].map
          (fun l => l.content))) = Node.document cs ∧
      parseItemLinesP (parseF 3) [ItemLine.lineText ['a']] = cs) :=
  ⟨by decide, by decide,
   C2_item_reparse 3 [ItemLine.lineText ['a']] (by decide) (by decide)⟩

/-- C3: a `List` is tight iff no blank line was consumed between or
within its items: `"- a\n- b"` parses tight, `"- a\n\n- b"` parses
loose, and over any run of the list accumulator started with no pending
blanks, the final tight flag is true iff it was true initially and no
consumed blank line was later followed by an item-extending line before
the list closed. -/
theorem C3_list_tight_iff :
    parseStr "- a\n- b" = Node.document
      [Node.list ListType.bullet 1 true
        [Node.listItem [Node.paragraph [Node.text ['a']]],
         Node.listItem [Node.paragraph [Node.text ['b']]]]] ∧
    parseStr "- a\n\n- b" = Node.document
      [Node.list ListType.bullet 1 false
        [Node.listItem [Node.paragraph [Node.text ['a']]],
         Node.listItem [Node.paragraph [Node.text ['b']]]]] ∧
    (∀ (f : ListItemStart) (ls : List (List Char)) (st st' : ListSt),
      st.pending = 0 → runListView f st ls = some st' →
      (st'.tight = true ↔
        (st.tight = true ∧ interiorBlank f st ls = false))) := by
  refine ⟨rfl, rfl, ?_⟩
  intro f ls st st' hp hrun
  have h := runListView_tight ls f st st' hrun
  rw [hp] at h
  rw [h]
  cases st.tight <;> cases hib : interiorBlank f st ls <;> simp

theorem C3_list_tight_iff_witness :
    (ListSt.pending ⟨[], [ItemLine.lineText ['a']], 2, true, 0⟩ = 0) ∧
    runListView ⟨ListMarker.bullet '-', 0, 2, ['a']⟩
        ⟨[], [ItemLine.lineText ['a']], 2, true, 0⟩ [['-', ' ', 'b']] =
      some ⟨[[ItemLine.lineText ['a']]], [ItemLine.lineText ['b']], 2,
        true, 0⟩ ∧
    ((ListSt.tight ⟨[[ItemLine.lineText ['a']]],
        [ItemLine.lineText ['b']], 2, true, 0⟩) = true ↔
      ((ListSt.tight ⟨[], [ItemLine.lineText ['a']], 2, true, 0⟩) = true ∧
       interiorBlank ⟨ListMarker.bullet '-', 0, 2, ['a']⟩
         ⟨[], [ItemLine.lineText ['a']], 2, true, 0⟩ [['-', ' ', 'b']] =
         false)) :=
  ⟨rfl, rfl,
   C3_list_tight_iff.2.2 ⟨ListMarker.bullet '-', 0, 2, ['a']⟩
     [['-', ' ', 'b']] ⟨[], [ItemLine.lineText ['a']], 2, true, 0⟩
     ⟨[[ItemLine.lineText ['a']]], [ItemLine.lineText ['b']], 2, true, 0⟩
     rfl rfl⟩

/-- C4 counterexample: the line `"  1. b"` bears a valid ordered-list
marker of a different type while a bullet `List` is open with content
indent 2, yet it does not close the list: `try_end` classifies it as a
continuation line, and the parse of `"- a\n  1. b"` yields a single
bullet `List` whose item contains the nested ordered list, not two
sibling lists. -/
theorem C4_counterexample :
    listItemTryStart "  1. b".toList = ListItemTryStart.started
      ⟨ListMarker.ordered 1 '.', 2, 5, ['b']⟩ ∧
    ListMarker.isSameType (ListMarker.bullet '-')
      (ListMarker.ordered 1 '.') = false ∧
    listTryEnd "  1. b".toList (ListMarker.bullet '-') 2 2 =
      ListTryEnd.continuation (ItemLine.lineText ['1', '.', ' ', 'b']) ∧
    parseStr "- a\n  1. b" = Node.document
      [Node.list ListType.bullet 1 true
        [Node.listItem
          [Node.paragraph [Node.text ['a']],
           Node.list (ListType.ordered '.') 1 true
             [Node.listItem [Node.paragraph [Node.text ['b']]]]]]] :=
  ⟨rfl, rfl, rfl, rfl⟩

/-- C4 (amended): a list never gains an item from a different-type
marker: a new-item decision always carries a marker of the same type as
the list's, and a line bearing a different-type marker at indentation
below the current item's content indent closes the list (it is replayed
from the idle state, as in `"1. a\n- b"` which yields two lists); at or
above the content indent such a line is swallowed as item content
instead. -/
theorem C4_marker_homogeneity :
    (∀ (line : List Char) (marker : ListMarker) (fci cci : Nat)
       (ns : ListItemStart),
      countLeadingChar line ' ' < cci →
      listItemTryStart line = .started ns →
      marker.isSameType ns.marker = false →
      listTryEnd line marker fci cci = .reprocess) ∧
    (∀ (line : List Char) (marker : ListMarker) (fci cci : Nat)
       (ns : ListItemStart),
      listTryEnd line marker fci cci = .newItem ns →
      marker.isSameType ns.marker = true) ∧
    parseStr "1. a\n- b" = Node.document
      [Node.list (ListType.ordered '.') 1 true
        [Node.listItem [Node.paragraph [Node.text ['a']]]],
       Node.list ListType.bullet 1 true
        [Node.listItem [Node.paragraph [Node.text ['b']]]]] :=
  ⟨listTryEnd_diff_type,
   fun line marker fci cci ns h =>
     (listTryEnd_newItem_start line marker fci cci ns h).2,
   rfl⟩

theorem C4_marker_homogeneity_witness :
    (countLeadingChar "- b".toList ' ' < 3) ∧
    (listItemTryStart "- b".toList = ListItemTryStart.started
      ⟨ListMarker.bullet '-', 0, 2, ['b']⟩) ∧
    (ListMarker.isSameType (ListMarker.ordered 1 '.')
      (ListMarker.bullet '-') = false) ∧
    listTryEnd "- b".toList (ListMarker.ordered 1 '.') 3 3 =
      ListTryEnd.reprocess ∧
    (listTryEnd "- b".toList (ListMarker.bullet '-') 2 2 =
      ListTryEnd.newItem ⟨ListMarker.bullet '-', 0, 2, ['b']⟩ ∧
     ListMarker.isSameType (ListMarker.bullet '-')
       (ListMarker.bullet '-') = true) :=
  ⟨by decide, rfl, rfl,
   C4_marker_homogeneity.1 "- b".toList (ListMarker.ordered 1 '.') 3 3
     ⟨ListMarker.bullet '-', 0, 2, ['b']⟩ (by decide) rfl rfl,
   rfl,
   C4_marker_homogeneity.2.1 "- b".toList (ListMarker.bullet '-') 2 2
     ⟨ListMarker.bullet '-', 0, 2, ['b']⟩ rfl⟩

/-- C5: while a fenced code block is open, a line closes it exactly when
its indentation is at most 3, it starts (after the indentation) with a
run of the opening fence character at least as long as the opening run,
and nothing but whitespace follows; `"~~~\ncode\n```"` therefore yields
one `CodeBlock` whose content keeps the unmatched backtick line. -/
theorem C5_fence_close :
    (∀ (line : List Char) (fenceChar : Char) (minFenceLen : Nat),
      fencedTryEnd line fenceChar minFenceLen = true ↔
        (countLeadingChar line ' ' ≤ 3 ∧
         1 ≤ countLeadingChar (line.drop (countLeadingChar line ' '))
           fenceChar ∧
         minFenceLen ≤ countLeadingChar
           (line.drop (countLeadingChar line ' ')) fenceChar ∧
         trimR ((line.drop (countLeadingChar line ' ')).drop
           (countLeadingChar (line.drop (countLeadingChar line ' '))
             fenceChar)) = [])) ∧
    (∀ (line : List Char) (fstart : CodeBlockFencedStart)
       (content : List (List Char)) (acc : List Node),
      (processLineInCodeBlock line fstart content acc).2 = .idle ↔
        fencedTryEnd line fstart.fenceChar fstart.fenceLen = true) ∧
    parseStr "~~~\ncode\n```" = Node.document
      [Node.codeBlock none ['c', 'o', 'd', 'e', '\n', '`', '`', '`']] := by
  refine ⟨?_, ?_, rfl⟩
  · intro line fc ml
    unfold fencedTryEnd
    by_cases h1 : countLeadingChar line ' ' > 3
    · rw [if_pos h1]
      simp only [Bool.false_eq_true, false_iff]
      rintro ⟨a, -, -, -⟩
      omega
    · rw [if_neg h1]
      by_cases h2 : countLeadingChar (line.drop (countLeadingChar line ' '))
          fc = 0
      · rw [if_pos h2]
        simp only [Bool.false_eq_true, false_iff]
        rintro ⟨-, b, -, -⟩
        omega
      · rw [if_neg h2]
        by_cases h3 : countLeadingChar
            (line.drop (countLeadingChar line ' ')) fc < ml
        · rw [if_pos h3]
          simp only [Bool.false_eq_true, false_iff]
          rintro ⟨-, -, hc, -⟩
          omega
        · rw [if_neg h3]
          by_cases h4 : trimR ((line.drop (countLeadingChar line ' ')).drop
              (countLeadingChar (line.drop (countLeadingChar line ' '))
                fc)) = []
          · rw [if_neg (by simpa using h4)]
            simp only [true_iff]
            exact ⟨by omega, by omega, by omega, h4⟩
          · rw [if_pos (by simpa using h4)]
            simp only [Bool.false_eq_true, false_iff]
            rintro ⟨-, -, -, hd⟩
            exact h4 hd
  · intro line fstart content acc
    unfold processLineInCodeBlock
    by_cases h : fencedTryEnd line fstart.fenceChar fstart.fenceLen = true
    · rw [if_pos h]
      simp [h]
    · rw [if_neg h]
      constructor
      · intro hc
        simp at hc
      · intro hc
        exact absurd hc h

/-- C6 counterexample: the line `"-"` is a valid empty-item list marker,
yet it does interrupt an open paragraph — it is a setext underline and
promotes the paragraph to a level-2 heading instead of being swallowed
as a continuation. -/
theorem C6_counterexample :
    listItemTryStart ['-'] = ListItemTryStart.started
      ⟨ListMarker.bullet '-', 0, 1, []⟩ ∧
    parseStr "x\n-" = Node.document [Node.heading 2 [Node.text ['x']]] ∧
    Node.document [Node.heading 2 [Node.text ['x']]] ≠
      Node.document [Node.paragraph [Node.text ['x', '\n', '-']]] :=
  ⟨rfl, rfl, by simp⟩

/-- C6 (amended): while a paragraph is accumulating, an empty-item
marker never opens a list: a `-` empty marker acts as a setext underline
and promotes the paragraph to a level-2 heading, and any other empty
marker is swallowed as a trimmed continuation line; a list-item start
with non-empty content that is not itself a setext underline or a
thematic break closes the paragraph and opens a list. -/
theorem C6_paragraph_interrupt :
    (∀ (line : List Char) (lines : List (List Char)) (acc : List Node)
       (st : ListItemStart), listItemTryStart line = .started st →
      st.content = [] → st.marker ≠ .bullet '-' →
      processLineInParagraph line lines acc =
        (acc, .paragraph (lines ++ [trimR line]))) ∧
    (∀ (line : List Char) (lines : List (List Char)) (acc : List Node)
       (st : ListItemStart), listItemTryStart line = .started st →
      st.marker = .bullet '-' → st.content = [] →
      processLineInParagraph line lines acc =
        (acc ++ [Node.heading 2 [Node.text (joinNL lines)]], .idle)) ∧
    (∀ (line : List Char) (lines : List (List Char)) (acc : List Node)
       (st : ListItemStart), listItemTryStart line = .started st →
      st.content ≠ [] →
      headingSetextTryStart (trimR line) (calculateIndent line) = none →
      thematicBreakParse (trimR line) (calculateIndent line) = none →
      processLineInParagraph line lines acc =
        (acc ++ [paragraphParse (joinNL lines)],
         .list st [] [ItemLine.lineText st.content] st.contentIndent
           true 0)) :=
  ⟨fun line lines acc st h h0 hnd =>
     paragraphStep_empty_swallow line lines acc st h h0 hnd,
   fun line lines acc st h hm h0 =>
     paragraphStep_dash_empty line lines acc st h hm h0,
   fun line lines acc st h h0 hs ht =>
     paragraphStep_list_start line lines acc st h h0 hs ht⟩

theorem C6_paragraph_interrupt_witness :
    (listItemTryStart ['*'] = ListItemTryStart.started
        ⟨ListMarker.bullet '*', 0, 1, []⟩ ∧
     processLineInParagraph ['*'] [['x']] [] =
       ([], ParsingContext.paragraph [['x'], ['*']])) ∧
    processLineInParagraph ['-'] [['x']] [] =
      ([] ++ [Node.heading 2 [Node.text (joinNL [['x']])]], .idle) ∧
    processLineInParagraph "- b".toList [['x']] [] =
      ([] ++ [paragraphParse (joinNL [['x']])],
       .list ⟨ListMarker.bullet '-', 0, 2, ['b']⟩ []
         [ItemLine.lineText ['b']] 2 true 0) :=
  ⟨⟨rfl,
    by
      have h := C6_paragraph_interrupt.1 ['*'] [['x']] []
        ⟨ListMarker.bullet '*', 0, 1, []⟩ rfl rfl (by decide)
      simpa using h⟩,
   C6_paragraph_interrupt.2.1 ['-'] [['x']] []
     ⟨ListMarker.bullet '-', 0, 1, []⟩ rfl rfl rfl,
   C6_paragraph_interrupt.2.2 "- b".toList [['x']] []
     ⟨ListMarker.bullet '-', 0, 2, ['b']⟩ rfl (by decide) rfl rfl⟩

/-- C7: every `Heading` node anywhere in a parse result has level
between 1 and 6, and `"####### x"` (seven hashes) parses as a
`Paragraph`, not a `Heading`. -/
theorem C7_heading_levels :
    (∀ s : List Char, NodeAll headingLevelOK (parse s)) ∧
    parseStr "####### x" = Node.document
      [Node.paragraph [Node.text "####### x".toList]] := by
  refine ⟨?_, rfl⟩
  intro s
  apply NodeAll.imp (P := structuralOK)
  · intro n hp
    cases n <;> first | exact hp | trivial
  · exact parse_sok s

/-- C8 counterexample: inside an open blockquote, a lazy-continuation
line is buffered trimmed, not verbatim: processing `"  b  "` appends
`"b"` to the buffered text, and `"> a\n  b"` parses to a paragraph text
`"a\nb"` with the indentation of the lazy line lost. -/
theorem C8_counterexample :
    processLineInBlockquote "  b  ".toList ["> a".toList] [] =
      ([], ParsingContext.blockquote ["> a".toList, ['b']]) ∧
    trimR "  b  ".toList ≠ "  b  ".toList ∧
    parseStr "> a\n  b" = Node.document
      [Node.blockquote [Node.paragraph [Node.text ['a', '\n', 'b']]]] :=
  ⟨rfl, by decide, rfl⟩

/-- C8 (amended): while a blockquote is open, a line that is not blank,
not a fenced-code start, not a thematic break, and not an ATX heading is
kept as a lazy-continuation line of the buffered text with its leading
and trailing whitespace trimmed (not verbatim). -/
theorem C8_lazy_trimmed (line : List Char) (lines : List (List Char))
    (acc : List Node)
    (hnb : trimR line ≠ [])
    (hfen : fencedTryStart line = none)
    (hthem : thematicBreakParse (trimR line) (calculateIndent line) =
      none)
    (hhead : headingParse (trimR line) (calculateIndent line) = none) :
    processLineInBlockquote line lines acc =
      (acc, .blockquote (lines ++ [trimR line])) := by
  simp only [processLineInBlockquote, eq_false hnb, if_false, hfen,
    hthem, hhead]

theorem C8_lazy_trimmed_witness :
    (trimR "  b  ".toList ≠ []) ∧
    (fencedTryStart "  b  ".toList = none) ∧
    processLineInBlockquote "  b  ".toList ["> a".toList] [] =
      ([], .blockquote (["> a".toList] ++ [trimR "  b  ".toList])) := by
  refine ⟨by decide, rfl, ?_⟩
  have h := C8_lazy_trimmed "  b  ".toList ["> a".toList] []
    (by decide) rfl rfl rfl
  simpa using h

/-- C9 counterexample: appending a trailing newline is not always
neutral: inside an unclosed fenced code block the extra newline becomes
an extra blank content line, so `"```\nx\n"` and the same input with
one more `"\n"` parse differently. -/
theorem C9_counterexample :
    parseStr "```\nx\n" = Node.document [Node.codeBlock none ['x']] ∧
    parse ("```\nx\n".toList ++ ['\n']) =
      Node.document [Node.codeBlock none ['x', '\n']] ∧
    Node.document [Node.codeBlock none ['x']] ≠
      Node.document [Node.codeBlock none ['x', '\n']] :=
  ⟨rfl, rfl, by simp⟩

/-- C9 (amended): appending a single trailing newline never changes the
parse of an input that does not already end in a newline or carriage
return. -/
theorem C9_trailing_newline (s : List Char)
    (h1 : s.getLast? ≠ some '\n') (h2 : s.getLast? ≠ some '\r') :
    parse (s ++ ['\n']) = parse s :=
  parse_append_newline s h1 h2

theorem C9_trailing_newline_witness :
    ("ab".toList.getLast? ≠ some '\n') ∧
    ("ab".toList.getLast? ≠ some '\r') ∧
    parse ("ab".toList ++ ['\n']) = parse "ab".toList :=
  ⟨by decide, by decide,
   C9_trailing_newline "ab".toList (by decide) (by decide)⟩

/-- C10: every `List` node anywhere in a parse result whose list type is
`Bullet` has start number 1. -/
theorem C10_bullet_start : ∀ s : List Char,
    NodeAll bulletStartOK (parse s) := by
  intro s
  apply NodeAll.imp (P := structuralOK)
  · intro n hp
    cases n with
    | list lt st t cs =>
      cases lt with
      | bullet => exact hp
      | ordered d => trivial
    | _ => trivial
  · exact parse_sok s


end Madang
